import Mathlib

/-! VirtualFS: the in-memory tree of `FileSystemNode.h`.

A shallow embedding of `class FileSystemNode` and `class FileSystem`
(`src/structure/FileSystemNode.h`) together with theorems about path
resolution (`traverse`), `add`, `write_to_file`, `read_file` and `display`.

Modelling conventions.

* `std::string` is a list of characters (`Str`); string literals are written
  `"...".toList`.
* `size_t` is a natural number; the two arithmetic expressions of `traverse`
  (`end - start` and `end + 1`) are taken modulo `2 ^ 64`, and
  `std::string::npos` is `2 ^ 64 - 1`.
* The heap of nodes owned by the root is the tree value itself.  A
  `FileSystemNode*` that points into the tree is a `NodePtr`: the position of
  the pointee (the child indices leading to it from the root) together with
  the object found there.  Writing through such a pointer is `store`.
* Every `throw` becomes an `Error` value, one constructor per throw site;
  the state after a throwing call is returned next to the error.
* The `while` loop of `traverse` is run with a fuel of `path.size()`
  iterations; `Error.OutOfFuel` marks an exhausted budget.
* `display` is given at two levels.  `displayNodeInt` and
  `FileSystem.displayInt` take the `int indent` of the source: a negative
  indent writes no indentation, and a run that evaluates `indent + 1` at
  `INT_MAX`, whose behaviour is undefined, has the result `none`.
  `displayNode` and `FileSystem.display` give the same lines for a depth that
  is a natural number; `displayNodeInt_eq` proves that the two agree from
  every non-negative indent that leaves room for the nesting of the tree.
-/

namespace VirtualFS

/-- The type `std::string`: a sequence of characters. -/
abbrev Str := List Char

/-- The constant `std::string::npos`, the largest `size_t`. -/
def npos : Nat := 2 ^ 64 - 1

/-- The failures of the program: the three `throw std::invalid_argument` sites
(in `traverse`, in `add_child`, in `write_to_file`/`read_file`), the
`std::out_of_range` of `std::string::substr`, and an exhausted loop budget. -/
inductive Error where
  | PathNotFound
  | NotADirectory
  | IsADirectory
  | OutOfRange
  | OutOfFuel
  deriving DecidableEq

/-- Offset of the first occurrence of `c` in `s`, if any. -/
def firstIndex (c : Char) : Str → Option Nat
  | [] => none
  | x :: xs => if x = c then some 0 else (firstIndex c xs).map (· + 1)

/-- The call `s.find(c, pos)`: the index of the first `c` at or after `pos`,
or `npos` when there is none. -/
def find (s : Str) (c : Char) (pos : Nat) : Nat :=
  match firstIndex c (s.drop pos) with
  | some i => pos + i
  | none => npos

/-- The call `s.substr(pos, count)`: throws `std::out_of_range` when
`pos > s.size()`, otherwise the characters `[pos, pos + min(count, size - pos))`. -/
def substr (s : Str) (pos count : Nat) : Except Error Str :=
  if pos > s.length then .error .OutOfRange else .ok ((s.drop pos).take count)

/-- The class `FileSystemNode` with its four data members. -/
inductive FileSystemNode where
  | mk (name : Str) (is_directory : Bool) (children : List FileSystemNode) (content : Str)

namespace FileSystemNode

/-- Member `name`. -/
def name : FileSystemNode → Str
  | mk n _ _ _ => n

/-- Member `is_directory`. -/
def is_directory : FileSystemNode → Bool
  | mk _ d _ _ => d

/-- Member `children`. -/
def children : FileSystemNode → List FileSystemNode
  | mk _ _ cs _ => cs

/-- Member `content`. -/
def content : FileSystemNode → Str
  | mk _ _ _ c => c

/-- The constructor `FileSystemNode(name, is_directory)`: no children, content `""`. -/
def init (name : Str) (is_directory : Bool) : FileSystemNode :=
  mk name is_directory [] []

/-- The method `add_child`: throws when the receiver is not a directory, otherwise
`children.push_back(child)`.  The result is the receiver after the call. -/
def add_child (self child : FileSystemNode) : Except Error FileSystemNode :=
  if !self.is_directory then .error .NotADirectory
  else .ok (mk self.name self.is_directory (self.children ++ [child]) self.content)

/-- The statement `node->content += content`, as the node after it. -/
def append_content (self : FileSystemNode) (content : Str) : FileSystemNode :=
  mk self.name self.is_directory self.children (self.content ++ content)

end FileSystemNode

/-- A `FileSystemNode*` into the tree: `addr` is the position of the pointee
(child indices from the root), `node` is the object stored there. -/
structure NodePtr where
  addr : List Nat
  node : FileSystemNode

/-- Dereference of a position: the node found by following child indices. -/
def nodeAt : FileSystemNode → List Nat → Option FileSystemNode
  | n, [] => some n
  | n, i :: rest =>
    match n.children[i]? with
    | some c => nodeAt c rest
    | none => none

/-- Write through a pointer: the tree in which the object at position `addr`
is replaced by `new` and everything else is as before. -/
def store : FileSystemNode → List Nat → FileSystemNode → FileSystemNode
  | _, [], new => new
  | .mk nm isd cs ct, i :: rest, new =>
    match cs[i]? with
    | some c => .mk nm isd (cs.set i (store c rest new)) ct
    | none => .mk nm isd cs ct

/-- The `for (auto* child : current->children)` loop of `traverse`: the index
and the object of the first child whose name equals `part`. -/
def findChild (part : Str) : List FileSystemNode → Option (Nat × FileSystemNode)
  | [] => none
  | child :: rest =>
    if child.name = part then some (0, child)
    else (findChild part rest).map fun r => (r.1 + 1, r.2)

/-- Lines 38-50 of `traverse`: scan the children of `current` for `part`, move
to the child found, or throw. -/
def traverseStep (current : NodePtr) (part : Str) : Except Error NodePtr :=
  match findChild part current.node.children with
  | some (i, child) => .ok ⟨current.addr ++ [i], child⟩
  | none => .error .PathNotFound

/-- The `while (start < path.size())` loop of `traverse`, with a budget of
iterations. -/
def traverseLoop (path : Str) : Nat → NodePtr → Nat → Except Error NodePtr
  | 0, current, start =>
    if start < path.length then .error .OutOfFuel else .ok current
  | fuel + 1, current, start =>
    if start < path.length then
      let end_ := find path '/' start
      match substr path start ((end_ + 2 ^ 64 - start) % 2 ^ 64) with
      | .error e => .error e
      | .ok part =>
        match traverseStep current part with
        | .error e => .error e
        | .ok next =>
          if end_ = npos then .ok next
          else traverseLoop path fuel next ((end_ + 1) % 2 ^ 64)
    else .ok current

/-- The class `FileSystem`: its only member is the owning pointer `root`. -/
structure FileSystem where
  root : FileSystemNode

namespace FileSystem

/-- The constructor `FileSystem()`: a root directory named `/`. -/
def init : FileSystem := ⟨FileSystemNode.init ['/'] true⟩

/-- The method `traverse`. -/
def traverse (fs : FileSystem) (path : Str) : Except Error NodePtr :=
  if path = ['/'] then .ok ⟨[], fs.root⟩
  else traverseLoop path path.length ⟨[], fs.root⟩ 1

/-- The method `add`: the outcome of the call and the file system after it. -/
def add (fs : FileSystem) (path name : Str) (is_directory : Bool) :
    Except Error Unit × FileSystem :=
  match fs.traverse path with
  | .error e => (.error e, fs)
  | .ok current =>
    let new_node := FileSystemNode.init name is_directory
    match current.node.add_child new_node with
    | .error e => (.error e, fs)
    | .ok updated => (.ok (), ⟨store fs.root current.addr updated⟩)

/-- The method `write_to_file`: the outcome of the call and the file system after it. -/
def write_to_file (fs : FileSystem) (path content : Str) :
    Except Error Unit × FileSystem :=
  match fs.traverse path with
  | .error e => (.error e, fs)
  | .ok file_node =>
    if file_node.node.is_directory then (.error .IsADirectory, fs)
    else (.ok (), ⟨store fs.root file_node.addr (file_node.node.append_content content)⟩)

/-- The method `read_file`: the outcome of the call and the file system after it. -/
def read_file (fs : FileSystem) (path : Str) : Except Error Str × FileSystem :=
  match fs.traverse path with
  | .error e => (.error e, fs)
  | .ok file_node =>
    if file_node.node.is_directory then (.error .IsADirectory, fs)
    else (.ok file_node.node.content, fs)

end FileSystem

mutual
/-- The body of `display` for a non-null `node` and a depth that is a natural
number: the lines written to `std::cout`, each recorded as `(indent, name)`
(that many copies of two spaces, then the name and a newline).  The method
with its `int indent` is `displayNodeInt`. -/
def displayNode : FileSystemNode → Nat → List (Nat × Str)
  | .mk nm isd cs _, indent =>
    (indent, nm) :: (if isd then displayChildren cs indent else [])
/-- The `for (auto* child : node->children) display(child, indent + 1)` loop. -/
def displayChildren : List FileSystemNode → Nat → List (Nat × Str)
  | [], _ => []
  | child :: rest, indent => displayNode child (indent + 1) ++ displayChildren rest indent
end

/-- The method `display` for a depth that is a natural number: a null `node`
stands for the root.  The method with its `int indent` is
`FileSystem.displayInt`. -/
def FileSystem.display (fs : FileSystem) (node : Option FileSystemNode) (indent : Nat) :
    List (Nat × Str) :=
  match node with
  | none => displayNode fs.root indent
  | some n => displayNode n indent

/-- The five `add` calls of the usage example at the end of the header. -/
def exampleTree : FileSystem :=
  let fs := FileSystem.init
  let fs := (fs.add "/".toList "home".toList true).2
  let fs := (fs.add "/home".toList "user1".toList true).2
  let fs := (fs.add "/home/user1".toList "file1.txt".toList false).2
  let fs := (fs.add "/".toList "etc".toList true).2
  (fs.add "/etc".toList "config".toList false).2

mutual
/-- The data-model invariant "only Directory nodes own children": in the
subtree of the node, every File node has an empty `children` vector. -/
def filesAreLeaves : FileSystemNode → Bool
  | .mk _ isd cs _ => (isd || cs.isEmpty) && allFilesAreLeaves cs
/-- The invariant `filesAreLeaves` for every node of a list. -/
def allFilesAreLeaves : List FileSystemNode → Bool
  | [] => true
  | c :: rest => filesAreLeaves c && allFilesAreLeaves rest
end

/-- Number of lines that `display` emits from a node. -/
def lineCount (n : FileSystemNode) : Nat := (displayNode n 0).length

/-- Index, in the output of `display` started at `n`, of the line emitted for
the node at position `addr` below `n`: one line for `n` itself, then all the
lines of the children before the one the position enters, then the index
within that child. -/
def lineIndex : FileSystemNode → List Nat → Nat
  | _, [] => 0
  | n, i :: rest =>
    match n.children[i]? with
    | some c => 1 + ((n.children.take i).map lineCount).sum + lineIndex c rest
    | none => 0

/-- The tree after the first `add` call of the usage example. -/
def homeTree : FileSystem :=
  (FileSystem.init.add "/".toList "home".toList true).2

/-- The call `add("/etc", "config", File)` of the usage example. -/
def addConfig (fs : FileSystem) : Except Error Unit × FileSystem :=
  fs.add "/etc".toList "config".toList false

/-- The tree after `add("/", "etc", Directory)` on a fresh file system. -/
def etcTree : FileSystem :=
  (FileSystem.init.add "/".toList "etc".toList true).2

/-- The resolution step in the words of the specification: replace the
current node by the first child, in insertion order, whose name equals the
segment; fail with `PathNotFound` when there is none. -/
def firstChildNamed (cur : NodePtr) (seg : Str) : Except Error NodePtr :=
  match cur.node.children.enum.find? (fun p => decide (p.2.name = seg)) with
  | some (i, c) => .ok ⟨cur.addr ++ [i], c⟩
  | none => .error .PathNotFound

/-- Resolution in the words of the specification: the left fold of
`firstChildNamed` over the segments, starting at the root. -/
def resolveFold (root : FileSystemNode) (segs : List Str) : Except Error NodePtr :=
  segs.foldlM firstChildNamed ⟨[], root⟩

/-- The text of the form `"/" + s1 + "/" + s2 + ... + "/" + sk`. -/
def slashJoin : List Str → Str
  | [] => []
  | s :: rest => '/' :: s ++ slashJoin rest

/-- The sequence of steps of `traverse` over a list of segments: move to the
first matching child for each segment in turn, stop at the first failure. -/
def walk : NodePtr → List Str → Except Error NodePtr
  | cur, [] => .ok cur
  | cur, s :: rest =>
    match traverseStep cur s with
    | .error e => .error e
    | .ok next => walk next rest

/-- How a pointer `c` into the tree relates to the pointer `c'` at the same
position after the object `old` at position `target` was replaced by `new`:
either `c` is at or above `target` and `c'` sees the replacement below it, or
`c` is elsewhere and `c'` sees the same object. -/
def Updated (target : List Nat) (old new : FileSystemNode) (c c' : NodePtr) : Prop :=
  c'.addr = c.addr ∧
    ((∃ rel, target = c.addr ++ rel ∧ nodeAt c.node rel = some old ∧
        c'.node = store c.node rel new)
      ∨ (¬ c.addr <+: target ∧ c'.node = c.node))

/-- The file systems a program can hold: the freshly constructed one, and
every one obtained from such by a call of `add`, `write_to_file` or
`read_file`, whether the call returns or throws. -/
inductive Reachable : FileSystem → Prop where
  | construct : Reachable FileSystem.init
  | add (fs : FileSystem) (path name : Str) (is_directory : Bool) :
      Reachable fs → Reachable (fs.add path name is_directory).2
  | write_to_file (fs : FileSystem) (path content : Str) :
      Reachable fs → Reachable (fs.write_to_file path content).2
  | read_file (fs : FileSystem) (path : Str) :
      Reachable fs → Reachable (fs.read_file path).2

mutual
/-- Number of nodes of the subtree of a node, the node included. -/
def nodeCount : FileSystemNode → Nat
  | .mk _ _ cs _ => 1 + nodeCountList cs
/-- Number of nodes of the subtrees of a list of nodes. -/
def nodeCountList : List FileSystemNode → Nat
  | [] => 0
  | c :: rest => nodeCount c + nodeCountList rest
end

/-- The path under which the usage example addresses the child `n` of the
directory at `p`: `"/" + n` under the root, `p + "/" + n` elsewhere. -/
def childPath (p n : Str) : Str :=
  if p = ['/'] then '/' :: n else p ++ '/' :: n

/-- The constant `INT_MAX` of the 32-bit `int`. -/
def INT_MAX : Int := 2 ^ 31 - 1

mutual
/-- The method `display` for a non-null `node`, with its parameter
`int indent` as declared.  The loop `for (int i = 0; i < indent; ++i)` writes
`max(0, indent)` groups of two spaces, so the line of the node is recorded with
that number of groups; the result is `none` when the run evaluates
`indent + 1` at `INT_MAX`, a signed overflow, whose behaviour is undefined. -/
def displayNodeInt : FileSystemNode → Int → Option (List (Nat × Str))
  | .mk nm isd cs _, indent =>
    if isd then (displayChildrenInt cs indent).map fun ls => (indent.toNat, nm) :: ls
    else some [(indent.toNat, nm)]
/-- The loop `for (auto* child : node->children) display(child, indent + 1)`
with `int indent`. -/
def displayChildrenInt : List FileSystemNode → Int → Option (List (Nat × Str))
  | [], _ => some []
  | child :: rest, indent =>
    if indent + 1 > INT_MAX then none
    else
      match displayNodeInt child (indent + 1) with
      | none => none
      | some ls => (displayChildrenInt rest indent).map fun ls' => ls ++ ls'
end

/-- The public method `display(node, indent)` with `int indent`: a null `node`
stands for the root. -/
def FileSystem.displayInt (fs : FileSystem) (node : Option FileSystemNode) (indent : Int) :
    Option (List (Nat × Str)) :=
  match node with
  | none => displayNodeInt fs.root indent
  | some n => displayNodeInt n indent

mutual
/-- Number of nested calls `display(child, indent + 1)` below a node: the
longest chain of directories that `display` descends through. -/
def displayDepth : FileSystemNode → Nat
  | .mk _ isd cs _ => if isd then displayDepthList cs else 0
/-- The same for the children of a directory, the step into a child counted. -/
def displayDepthList : List FileSystemNode → Nat
  | [] => 0
  | c :: rest => max (displayDepth c + 1) (displayDepthList rest)
end

/-! ## Members of a constructed node -/

@[simp]
theorem name_mk (n : Str) (d : Bool) (cs : List FileSystemNode) (c : Str) :
    (FileSystemNode.mk n d cs c).name = n := rfl

@[simp]
theorem is_directory_mk (n : Str) (d : Bool) (cs : List FileSystemNode) (c : Str) :
    (FileSystemNode.mk n d cs c).is_directory = d := rfl

@[simp]
theorem children_mk (n : Str) (d : Bool) (cs : List FileSystemNode) (c : Str) :
    (FileSystemNode.mk n d cs c).children = cs := rfl

@[simp]
theorem content_mk (n : Str) (d : Bool) (cs : List FileSystemNode) (c : Str) :
    (FileSystemNode.mk n d cs c).content = c := rfl

theorem mk_members (n : FileSystemNode) :
    FileSystemNode.mk n.name n.is_directory n.children n.content = n := by
  cases n; rfl

/-! ## Strings: `find` and `substr` -/

theorem npos_val : npos = 18446744073709551615 := by decide

theorem firstIndex_eq_none {c : Char} {s : Str} (h : c ∉ s) : firstIndex c s = none := by
  induction s with
  | nil => rfl
  | cons x xs ih =>
    have hx : x ≠ c := fun e => h (by simp [e])
    have hxs : c ∉ xs := fun e => h (by simp [e])
    simp [firstIndex, hx, ih hxs]

theorem firstIndex_append_sep {c : Char} {s : Str} (t : Str) (h : c ∉ s) :
    firstIndex c (s ++ c :: t) = some s.length := by
  induction s with
  | nil => simp [firstIndex]
  | cons x xs ih =>
    have hx : x ≠ c := fun e => h (by simp [e])
    have hxs : c ∉ xs := fun e => h (by simp [e])
    simp [firstIndex, hx, ih hxs]

theorem firstIndex_lt {c : Char} {s : Str} {i : Nat} (h : firstIndex c s = some i) :
    i < s.length := by
  induction s generalizing i with
  | nil => simp [firstIndex] at h
  | cons x xs ih =>
    by_cases hx : x = c
    · simp [firstIndex, hx] at h
      subst h
      simp
    · simp only [firstIndex, hx, if_false, Option.map_eq_some'] at h
      obtain ⟨j, hj, rfl⟩ := h
      have := ih hj
      simp
      omega

/-! ## One iteration of the loop of `traverse` -/

theorem traverseLoop_done (path : Str) (fuel : Nat) (cur : NodePtr) (start : Nat)
    (h : path.length ≤ start) : traverseLoop path fuel cur start = .ok cur := by
  have h' : ¬ start < path.length := by omega
  cases fuel <;> simp [traverseLoop, h']

theorem traverseLoop_succ (path : Str) (fuel : Nat) (current : NodePtr) (start : Nat)
    (hlt : start < path.length) :
    traverseLoop path (fuel + 1) current start =
      match substr path start ((find path '/' start + 2 ^ 64 - start) % 2 ^ 64) with
      | .error e => .error e
      | .ok part =>
        match traverseStep current part with
        | .error e => .error e
        | .ok next =>
          if find path '/' start = npos then .ok next
          else traverseLoop path fuel next ((find path '/' start + 1) % 2 ^ 64) := by
  rw [traverseLoop, if_pos hlt]

/-- The last iteration: the text from `start` on holds no separator. -/
theorem traverseLoop_last (pre s : Str) (fuel : Nat) (cur : NodePtr)
    (hs : '/' ∉ s) (hne : s ≠ []) (hlen : (pre ++ s).length < 2 ^ 64) :
    traverseLoop (pre ++ s) (fuel + 1) cur pre.length = traverseStep cur s := by
  have hpos : 0 < s.length := List.length_pos.mpr hne
  have hlt : pre.length < (pre ++ s).length := by simp; omega
  have hfind : find (pre ++ s) '/' pre.length = npos := by
    simp [find, firstIndex_eq_none hs]
  have hcount : (npos + 2 ^ 64 - pre.length) % 2 ^ 64 = npos - pre.length := by
    rw [npos_val]; simp at hlen; omega
  have hsub : substr (pre ++ s) pre.length (npos - pre.length) = .ok s := by
    have : ¬ pre.length > (pre ++ s).length := by omega
    simp only [substr, this, if_false]
    congr 1
    simp
    rw [npos_val]; simp at hlen; omega
  rw [traverseLoop]
  simp only [hlt, if_true, hfind, hcount, hsub]
  cases traverseStep cur s <;> simp

/-- An iteration that stops at a separator: the segment before it is looked
up and the loop goes on right after the separator. -/
theorem traverseLoop_next (pre s t : Str) (fuel : Nat) (cur : NodePtr)
    (hs : '/' ∉ s) (hlen : (pre ++ s ++ '/' :: t).length < 2 ^ 64) :
    traverseLoop (pre ++ s ++ '/' :: t) (fuel + 1) cur pre.length =
      match traverseStep cur s with
      | .error e => .error e
      | .ok next => traverseLoop (pre ++ s ++ '/' :: t) fuel next (pre ++ s ++ ['/']).length := by
  have hlen' : pre.length + s.length + (t.length + 1) < 2 ^ 64 := by
    simpa [Nat.add_assoc] using hlen
  have hlt : pre.length < (pre ++ s ++ '/' :: t).length := by simp
  have hfind : find (pre ++ s ++ '/' :: t) '/' pre.length = pre.length + s.length := by
    simp [find, List.append_assoc, firstIndex_append_sep t hs]
  have hcount : (pre.length + s.length + 2 ^ 64 - pre.length) % 2 ^ 64 = s.length := by
    omega
  have hsub : substr (pre ++ s ++ '/' :: t) pre.length s.length = .ok s := by
    have : ¬ pre.length > (pre ++ s ++ '/' :: t).length := by omega
    simp only [substr, this, if_false]
    congr 1
    simp [List.append_assoc]
  have hne : pre.length + s.length ≠ npos := by rw [npos_val]; omega
  have hnext : (pre.length + s.length + 1) % 2 ^ 64 = (pre ++ s ++ ['/']).length := by
    simp; omega
  rw [traverseLoop]
  simp only [hlt, if_true, hfind, hcount, hsub, hne, if_false, hnext]

/-! ## The loop of `traverse` over a path given by its segments -/

theorem length_le_slashJoin (segs : List Str) : segs.length ≤ (slashJoin segs).length := by
  induction segs with
  | nil => simp [slashJoin]
  | cons s rest ih => simp [slashJoin]; omega

/-- From position `pre.length` on, the path reads `s1/s2/.../sk` and then
either ends (with `sk` non-empty) or ends after one more separator: the loop
looks up exactly `s1, ..., sk`. -/
theorem traverseLoop_segs (rest : List Str) :
    ∀ (s pre tail : Str) (cur : NodePtr) (fuel : Nat),
      '/' ∉ s → (∀ x ∈ rest, '/' ∉ x) →
      (tail = [] ∧ (s :: rest).getLast? ≠ some [] ∨ tail = ['/']) →
      rest.length + 1 ≤ fuel →
      (pre ++ s ++ slashJoin rest ++ tail).length < 2 ^ 64 →
      traverseLoop (pre ++ s ++ slashJoin rest ++ tail) fuel cur pre.length
        = walk cur (s :: rest) := by
  induction rest with
  | nil =>
    intro s pre tail cur fuel hs _ htail hfuel hlen
    obtain ⟨f, rfl⟩ : ∃ f, fuel = f + 1 := ⟨fuel - 1, by simp at hfuel; omega⟩
    rcases htail with ⟨rfl, hlast⟩ | rfl
    · have hne : s ≠ [] := by simpa using hlast
      simp only [slashJoin, List.append_nil] at hlen ⊢
      rw [traverseLoop_last pre s f cur hs hne hlen]
      simp only [walk]
      cases traverseStep cur s <;> rfl
    · simp only [slashJoin, List.append_nil] at hlen ⊢
      rw [traverseLoop_next pre s [] f cur hs hlen]
      simp only [walk]
      cases traverseStep cur s with
      | error e => rfl
      | ok next => exact traverseLoop_done _ _ _ _ (by simp)
  | cons s' rest' ih =>
    intro s pre tail cur fuel hs hrest htail hfuel hlen
    obtain ⟨f, rfl⟩ : ∃ f, fuel = f + 1 := ⟨fuel - 1, by simp at hfuel; omega⟩
    have hpath : pre ++ s ++ slashJoin (s' :: rest') ++ tail
        = pre ++ s ++ '/' :: (s' ++ slashJoin rest' ++ tail) := by
      simp [slashJoin, List.append_assoc]
    have hpath' : pre ++ s ++ '/' :: (s' ++ slashJoin rest' ++ tail)
        = (pre ++ s ++ ['/']) ++ s' ++ slashJoin rest' ++ tail := by
      simp [List.append_assoc]
    rw [hpath] at hlen ⊢
    rw [traverseLoop_next pre s _ f cur hs hlen]
    rw [walk]
    cases traverseStep cur s with
    | error e => rfl
    | ok next =>
      simp only
      rw [hpath'] at hlen ⊢
      refine ih s' (pre ++ s ++ ['/']) tail next f (hrest s' (by simp))
        (fun x hx => hrest x (by simp [hx])) ?_ (by simp at hfuel; omega) hlen
      rcases htail with ⟨rfl, hlast⟩ | rfl
      · exact Or.inl ⟨rfl, by simpa using hlast⟩
      · exact Or.inr rfl

/-- The method `traverse` on a path `c s1/s2/.../sk` or `c s1/.../sk/` whose
first character `c` is arbitrary: the result is the walk over `s1, ..., sk`. -/
theorem traverse_segs (fs : FileSystem) (c : Char) (s : Str) (rest : List Str) (tail : Str)
    (hs : '/' ∉ s) (hrest : ∀ x ∈ rest, '/' ∉ x)
    (htail : tail = [] ∧ (s :: rest).getLast? ≠ some [] ∨ tail = ['/'])
    (hlen : (c :: s ++ slashJoin rest ++ tail).length < 2 ^ 64) :
    fs.traverse (c :: s ++ slashJoin rest ++ tail) = walk ⟨[], fs.root⟩ (s :: rest) := by
  have hne : s ++ slashJoin rest ++ tail ≠ [] := by
    rcases htail with ⟨rfl, hlast⟩ | rfl
    · cases rest with
      | nil => simpa [slashJoin] using hlast
      | cons a b => simp [slashJoin]
    · simp
  have hroot : ¬ (c :: s ++ slashJoin rest ++ tail = ['/']) := by
    intro h
    apply hne
    have h2 : c = '/' ∧ s = [] ∧ slashJoin rest = [] ∧ tail = [] := by
      simpa [List.append_assoc] using h
    simp [h2.2.1, h2.2.2.1, h2.2.2.2]
  have hfuel : rest.length + 1 ≤ (c :: s ++ slashJoin rest ++ tail).length := by
    have := length_le_slashJoin rest
    simp
    omega
  unfold FileSystem.traverse
  rw [if_neg hroot]
  exact traverseLoop_segs rest s [c] tail ⟨[], fs.root⟩ _ hs hrest htail hfuel hlen

/-! ## The scan of the children and the fold of the specification -/

theorem find_enumFrom_eq_findChild (part : Str) (cs : List FileSystemNode) (k : Nat) :
    (cs.enumFrom k).find? (fun p => decide (p.2.name = part))
      = (findChild part cs).map fun r => (r.1 + k, r.2) := by
  induction cs generalizing k with
  | nil => simp [findChild]
  | cons c rest ih =>
    by_cases hc : c.name = part
    · simp [List.enumFrom_cons, findChild, hc]
    · simp only [List.enumFrom_cons, findChild, hc, List.find?_cons, decide_False, if_false]
      rw [ih (k + 1)]
      cases findChild part rest with
      | none => rfl
      | some r => simp [Nat.add_assoc, Nat.add_comm 1 k]

theorem firstChildNamed_eq_traverseStep (cur : NodePtr) (seg : Str) :
    firstChildNamed cur seg = traverseStep cur seg := by
  unfold firstChildNamed traverseStep List.enum
  rw [find_enumFrom_eq_findChild]
  cases findChild seg cur.node.children with
  | none => rfl
  | some r => rfl

theorem foldlM_eq_walk (segs : List Str) (cur : NodePtr) :
    segs.foldlM firstChildNamed cur = walk cur segs := by
  induction segs generalizing cur with
  | nil => rfl
  | cons s rest ih =>
    rw [List.foldlM_cons, walk, firstChildNamed_eq_traverseStep]
    cases traverseStep cur s with
    | error e => rfl
    | ok next => exact ih next

theorem resolveFold_eq_walk (root : FileSystemNode) (segs : List Str) :
    resolveFold root segs = walk ⟨[], root⟩ segs :=
  foldlM_eq_walk segs _

/-! ## The scan of the children: first match, and its stability under updates -/

/-- What the scan returns is the first child, in list order, with the name sought. -/
theorem findChild_eq_some {part : Str} {cs : List FileSystemNode} {i : Nat}
    {c : FileSystemNode} (h : findChild part cs = some (i, c)) :
    cs[i]? = some c ∧ c.name = part ∧
      ∀ j c', j < i → cs[j]? = some c' → c'.name ≠ part := by
  induction cs generalizing i with
  | nil => simp [findChild] at h
  | cons x xs ih =>
    by_cases hx : x.name = part
    · simp only [findChild, hx, if_true, Option.some.injEq, Prod.mk.injEq] at h
      obtain ⟨rfl, rfl⟩ := h
      exact ⟨by simp, hx, fun j c' hj => absurd hj (Nat.not_lt_zero j)⟩
    · simp only [findChild, hx, if_false, Option.map_eq_some'] at h
      obtain ⟨⟨k, d⟩, hk, hkd⟩ := h
      simp only [Prod.mk.injEq] at hkd
      obtain ⟨rfl, rfl⟩ := hkd
      obtain ⟨h1, h2, h3⟩ := ih hk
      refine ⟨by simpa using h1, h2, ?_⟩
      intro j c' hj hc'
      cases j with
      | zero =>
        simp only [List.getElem?_cons_zero, Option.some.injEq] at hc'
        exact hc' ▸ hx
      | succ j =>
        simp only [List.getElem?_cons_succ] at hc'
        exact h3 j c' (by omega) hc'

theorem findChild_eq_none {part : Str} {cs : List FileSystemNode} :
    findChild part cs = none ↔ ∀ c ∈ cs, c.name ≠ part := by
  induction cs with
  | nil => simp [findChild]
  | cons x xs ih =>
    by_cases hx : x.name = part
    · simp [findChild, hx]
    · simp [findChild, hx, ih]

theorem findChild_append_of_some {part : Str} {cs : List FileSystemNode}
    {r : Nat × FileSystemNode} (extra : List FileSystemNode) (h : findChild part cs = some r) :
    findChild part (cs ++ extra) = some r := by
  induction cs generalizing r with
  | nil => simp [findChild] at h
  | cons x xs ih =>
    by_cases hx : x.name = part
    · simpa [findChild, hx] using h
    · simp only [findChild, hx, if_false, Option.map_eq_some', List.cons_append] at h ⊢
      obtain ⟨q, hq, rfl⟩ := h
      exact ⟨q, ih hq, rfl⟩

theorem findChild_append_of_none {part : Str} {cs : List FileSystemNode}
    (extra : List FileSystemNode) (h : findChild part cs = none) :
    findChild part (cs ++ extra)
      = (findChild part extra).map fun r => (r.1 + cs.length, r.2) := by
  induction cs with
  | nil => simp
  | cons x xs ih =>
    by_cases hx : x.name = part
    · simp [findChild, hx] at h
    · simp only [findChild, hx, if_false, Option.map_eq_none'] at h
      have ih' := ih h
      rw [List.cons_append, findChild, if_neg hx, ih', List.length_cons]
      cases findChild part extra with
      | none => rfl
      | some r => simp [Nat.add_assoc]

/-- Replacing one child by a node of the same name does not move the first match. -/
theorem findChild_set {part : Str} {cs : List FileSystemNode} {j : Nat}
    {cj x : FileSystemNode} (hj : cs[j]? = some cj) (hname : x.name = cj.name) :
    findChild part (cs.set j x)
      = (findChild part cs).map fun r => (r.1, if r.1 = j then x else r.2) := by
  induction cs generalizing j with
  | nil => simp at hj
  | cons y ys ih =>
    cases j with
    | zero =>
      simp only [List.getElem?_cons_zero, Option.some.injEq] at hj
      subst hj
      by_cases hy : y.name = part
      · simp [findChild, hy, hname]
      · simp only [List.set_cons_zero, findChild, hname, hy, if_false, Option.map_map]
        cases findChild part ys with
        | none => rfl
        | some r => simp
    | succ j =>
      simp only [List.getElem?_cons_succ] at hj
      by_cases hy : y.name = part
      · simp [findChild, hy]
      · simp only [List.set_cons_succ, findChild, hy, if_false, ih hj, Option.map_map]
        cases findChild part ys with
        | none => rfl
        | some r => simp

/-! ## Reading and writing through positions -/

theorem nodeAt_append (root : FileSystemNode) (p q : List Nat) :
    nodeAt root (p ++ q) = (nodeAt root p).bind fun n => nodeAt n q := by
  induction p generalizing root with
  | nil => simp [nodeAt]
  | cons i rest ih =>
    simp only [List.cons_append, nodeAt]
    cases root.children[i]? with
    | none => rfl
    | some c => exact ih c

/-- Writing a node of the same name somewhere below `n` keeps the name of `n`. -/
theorem store_name {n old new : FileSystemNode} {rel : List Nat}
    (hold : nodeAt n rel = some old) (hname : new.name = old.name) :
    (store n rel new).name = n.name := by
  cases rel with
  | nil =>
    simp only [nodeAt, Option.some.injEq] at hold
    subst hold
    simpa [store] using hname
  | cons i rest =>
    cases n with
    | mk nm isd cs ct =>
      simp only [store]
      cases cs[i]? <;> rfl

/-- After a write at `addr`, what lies at and below `addr` is the new node. -/
theorem nodeAt_store_below {root old : FileSystemNode} {addr : List Nat}
    (new : FileSystemNode) (q : List Nat) (hold : nodeAt root addr = some old) :
    nodeAt (store root addr new) (addr ++ q) = nodeAt new q := by
  induction addr generalizing root with
  | nil => simp [store]
  | cons i rest ih =>
    cases root with
    | mk nm isd cs ct =>
      simp only [nodeAt, FileSystemNode.children] at hold
      cases hci : cs[i]? with
      | none => simp [hci] at hold
      | some ci =>
        simp only [hci] at hold
        have hlt : i < cs.length := by
          rcases List.getElem?_eq_some.mp hci with ⟨h, _⟩
          exact h
        simp only [store, hci, List.cons_append, nodeAt, FileSystemNode.children,
          List.getElem?_set_self hlt]
        exact ih hold

/-- After a write at `p ++ rel`, the ancestor at `p` is the old ancestor with
the write applied below it. -/
theorem nodeAt_store_above {root old : FileSystemNode} (p rel : List Nat)
    (new : FileSystemNode) (hold : nodeAt root (p ++ rel) = some old) :
    nodeAt (store root (p ++ rel) new) p = (nodeAt root p).map fun n => store n rel new := by
  induction p generalizing root with
  | nil => simp [nodeAt]
  | cons i rest ih =>
    cases root with
    | mk nm isd cs ct =>
      simp only [List.cons_append, nodeAt, FileSystemNode.children] at hold
      cases hci : cs[i]? with
      | none => simp [hci] at hold
      | some ci =>
        simp only [hci] at hold
        have hlt : i < cs.length := by
          rcases List.getElem?_eq_some.mp hci with ⟨h, _⟩
          exact h
        simp only [store, hci, List.cons_append, nodeAt, FileSystemNode.children,
          List.getElem?_set_self hlt]
        exact ih hold

/-- A write at `addr` is not seen at positions that are neither above nor below `addr`. -/
theorem nodeAt_store_apart (root new : FileSystemNode) (addr q : List Nat)
    (h1 : ¬ addr <+: q) (h2 : ¬ q <+: addr) :
    nodeAt (store root addr new) q = nodeAt root q := by
  induction addr generalizing root q with
  | nil => exact absurd (List.nil_prefix) h1
  | cons i rest ih =>
    cases q with
    | nil => exact absurd (List.nil_prefix) h2
    | cons j q' =>
      cases root with
      | mk nm isd cs ct =>
        simp only [store]
        cases hci : cs[i]? with
        | none => rfl
        | some ci =>
          simp only [nodeAt, FileSystemNode.children]
          by_cases hij : i = j
          · subst hij
            have hlt : i < cs.length := by
              rcases List.getElem?_eq_some.mp hci with ⟨h, _⟩
              exact h
            rw [List.getElem?_set_self hlt, hci]
            refine ih ci q' ?_ ?_
            · intro h; exact h1 (List.cons_prefix_cons.mpr ⟨rfl, h⟩)
            · intro h; exact h2 (List.cons_prefix_cons.mpr ⟨rfl, h⟩)
          · rw [List.getElem?_set_ne hij]

/-! ## Simulation of `traverse` between two trees -/

/-- If every successful step from related pointers leads to related pointers,
every successful run of the loop does. -/
theorem traverseLoop_sim (R : NodePtr → NodePtr → Prop)
    (hstep : ∀ c c' part r, R c c' → traverseStep c part = .ok r →
      ∃ r', traverseStep c' part = .ok r' ∧ R r r')
    (path : Str) (fuel : Nat) :
    ∀ (c c' : NodePtr) (start : Nat) (r : NodePtr), R c c' →
      traverseLoop path fuel c start = .ok r →
      ∃ r', traverseLoop path fuel c' start = .ok r' ∧ R r r' := by
  induction fuel with
  | zero =>
    intro c c' start r hR h
    by_cases hlt : start < path.length
    · simp [traverseLoop, hlt] at h
    · simp only [traverseLoop, hlt, if_false, Except.ok.injEq] at h ⊢
      exact ⟨c', rfl, h ▸ hR⟩
  | succ fuel ih =>
    intro c c' start r hR h
    by_cases hlt : start < path.length
    · rw [traverseLoop_succ _ _ _ _ hlt] at h ⊢
      cases hsub : substr path start ((find path '/' start + 2 ^ 64 - start) % 2 ^ 64) with
      | error e => rw [hsub] at h; cases h
      | ok part =>
        rw [hsub] at h
        dsimp only at h ⊢
        cases hst : traverseStep c part with
        | error e => rw [hst] at h; cases h
        | ok next =>
          obtain ⟨next', hst', hR'⟩ := hstep c c' part next hR hst
          rw [hst] at h
          rw [hst']
          dsimp only at h ⊢
          by_cases hend : find path '/' start = npos
          · rw [if_pos hend] at h ⊢
            cases h
            exact ⟨next', rfl, hR'⟩
          · rw [if_neg hend] at h ⊢
            exact ih next next' _ r hR' h
    · rw [traverseLoop, if_neg hlt] at h ⊢
      cases h
      exact ⟨c', rfl, hR⟩

theorem traverse_sim (R : NodePtr → NodePtr → Prop)
    (hstep : ∀ c c' part r, R c c' → traverseStep c part = .ok r →
      ∃ r', traverseStep c' part = .ok r' ∧ R r r')
    (fs fs' : FileSystem) (hroot : R ⟨[], fs.root⟩ ⟨[], fs'.root⟩) (path : Str) (r : NodePtr)
    (h : fs.traverse path = .ok r) :
    ∃ r', fs'.traverse path = .ok r' ∧ R r r' := by
  unfold FileSystem.traverse at h ⊢
  by_cases hp : path = ['/']
  · simp only [hp, if_true, Except.ok.injEq] at h ⊢
    exact ⟨_, rfl, h ▸ hroot⟩
  · simp only [hp, if_false] at h ⊢
    exact traverseLoop_sim R hstep path _ _ _ _ r hroot h

/-- The pointer that `traverse` returns points into the tree: the object it
holds is the one stored at its position. -/
theorem traverseStep_nodeAt {root : FileSystemNode} {c r : NodePtr} {part : Str}
    (hc : nodeAt root c.addr = some c.node) (hst : traverseStep c part = .ok r) :
    nodeAt root r.addr = some r.node := by
  unfold traverseStep at hst
  cases hf : findChild part c.node.children with
  | none => rw [hf] at hst; cases hst
  | some q =>
    obtain ⟨i, ch⟩ := q
    rw [hf] at hst
    cases hst
    have hi := (findChild_eq_some hf).1
    simp [nodeAt_append, hc, nodeAt, hi]

theorem traverse_nodeAt {fs : FileSystem} {path : Str} {r : NodePtr}
    (h : fs.traverse path = .ok r) : nodeAt fs.root r.addr = some r.node := by
  have key := traverse_sim (fun c c' => c' = c ∧ nodeAt fs.root c.addr = some c.node) ?_ fs fs
    (by simp [nodeAt]) path r h
  · obtain ⟨_, _, _, hr⟩ := key
    exact hr
  · rintro c c' part r ⟨rfl, hc⟩ hst
    exact ⟨r, hst, rfl, traverseStep_nodeAt hc hst⟩

theorem walk_nodeAt {root : FileSystemNode} (segs : List Str) {c r : NodePtr}
    (hc : nodeAt root c.addr = some c.node) (h : walk c segs = .ok r) :
    nodeAt root r.addr = some r.node := by
  induction segs generalizing c with
  | nil => cases h; exact hc
  | cons s rest ih =>
    rw [walk] at h
    cases hst : traverseStep c s with
    | error e => rw [hst] at h; cases h
    | ok next =>
      rw [hst] at h
      exact ih (traverseStep_nodeAt hc hst) h

theorem walk_singleton (c : NodePtr) (s : Str) : walk c [s] = traverseStep c s := by
  rw [walk]
  cases traverseStep c s <;> rfl

theorem walk_append (c : NodePtr) (xs ys : List Str) :
    walk c (xs ++ ys) =
      match walk c xs with
      | .error e => .error e
      | .ok m => walk m ys := by
  induction xs generalizing c with
  | nil => rfl
  | cons s rest ih =>
    rw [List.cons_append, walk, walk]
    cases traverseStep c s with
    | error e => rfl
    | ok next => exact ih next

theorem walk_error {c : NodePtr} {segs : List Str} {e : Error}
    (h : walk c segs = .error e) : e = .PathNotFound := by
  induction segs generalizing c with
  | nil => cases h
  | cons s rest ih =>
    rw [walk] at h
    cases hst : traverseStep c s with
    | error e' =>
      rw [hst] at h
      cases h
      unfold traverseStep at hst
      cases hf : findChild s c.node.children with
      | none => rw [hf] at hst; cases hst; rfl
      | some q => rw [hf] at hst; cases hst
    | ok next =>
      rw [hst] at h
      exact ih h

/-! ## `traverse` after the object at one position was replaced -/

theorem updated_step {target : List Nat} {old new : FileSystemNode}
    (hname : new.name = old.name) (hkids : old.children <+: new.children)
    (c c' : NodePtr) (part : Str) (r : NodePtr)
    (hR : Updated target old new c c') (hst : traverseStep c part = .ok r) :
    ∃ r', traverseStep c' part = .ok r' ∧ Updated target old new r r' := by
  obtain ⟨c_addr, c_node⟩ := c
  obtain ⟨c'_addr, c'_node⟩ := c'
  obtain ⟨haddr, hcase⟩ := hR
  dsimp only at haddr hcase
  subst haddr
  unfold traverseStep at hst ⊢
  dsimp only at hst ⊢
  cases hf : findChild part c_node.children with
  | none => rw [hf] at hst; cases hst
  | some q =>
    obtain ⟨i, ch⟩ := q
    rw [hf] at hst
    cases hst
    rcases hcase with ⟨rel, htarget, hold, hnode⟩ | ⟨hnot, hnode⟩
    · cases rel with
      | nil =>
        simp only [nodeAt, Option.some.injEq] at hold
        subst hold
        simp only [store] at hnode
        subst hnode
        obtain ⟨extra, hextra⟩ := hkids
        rw [← hextra, findChild_append_of_some extra hf]
        refine ⟨_, rfl, rfl, Or.inr ⟨?_, rfl⟩⟩
        intro hpre
        have := hpre.length_le
        simp [htarget] at this
      | cons j rel' =>
        cases c_node with
        | mk nm isd cs ct =>
          simp only [FileSystemNode.children] at hf
          simp only [nodeAt, FileSystemNode.children] at hold
          cases hcj : cs[j]? with
          | none => simp [hcj] at hold
          | some cj =>
            simp only [hcj] at hold
            simp only [store, hcj] at hnode
            subst hnode
            have hnm : (store cj rel' new).name = cj.name := store_name hold hname
            simp only [FileSystemNode.children]
            rw [findChild_set hcj hnm, hf]
            refine ⟨_, rfl, rfl, ?_⟩
            by_cases hij : i = j
            · subst hij
              have hch : ch = cj := by
                have := (findChild_eq_some hf).1
                rw [hcj] at this
                exact (Option.some.inj this).symm
              subst hch
              exact Or.inl ⟨rel', by simp [htarget], hold, by simp⟩
            · refine Or.inr ⟨?_, by simp [hij]⟩
              rw [htarget]
              intro hpre
              have h2 : [i] <+: j :: rel' := (List.prefix_append_right_inj _).mp hpre
              exact hij (List.cons_prefix_cons.mp h2).1
    · subst hnode
      rw [hf]
      refine ⟨_, rfl, rfl, Or.inr ⟨?_, rfl⟩⟩
      intro hpre
      exact hnot ((List.prefix_append _ [i]).trans hpre)

/-- Resolution after an update.  If the object `old` at `target` is replaced
by `new`, of the same name and whose children extend those of `old`, every path
that resolved before still resolves, to the same position. -/
theorem traverse_store {fs : FileSystem} {target : List Nat} {old new : FileSystemNode}
    (hold : nodeAt fs.root target = some old)
    (hname : new.name = old.name) (hkids : old.children <+: new.children)
    {path : Str} {r : NodePtr} (h : fs.traverse path = .ok r) :
    ∃ r', FileSystem.traverse ⟨store fs.root target new⟩ path = .ok r' ∧
      Updated target old new r r' :=
  traverse_sim (Updated target old new) (updated_step hname hkids) fs ⟨store fs.root target new⟩
    ⟨rfl, Or.inl ⟨target, by simp, hold, rfl⟩⟩ path r h

/-- A path that resolved to the position written to resolves, after the write,
to the new object at that position. -/
theorem traverse_store_self {fs : FileSystem} {new : FileSystemNode}
    {path : Str} {r : NodePtr} (h : fs.traverse path = .ok r)
    (hname : new.name = r.node.name) (hkids : r.node.children <+: new.children) :
    FileSystem.traverse ⟨store fs.root r.addr new⟩ path = .ok ⟨r.addr, new⟩ := by
  obtain ⟨r', hr', haddr, hcase⟩ := traverse_store (traverse_nodeAt h) hname hkids h
  rw [hr']
  obtain ⟨a, n⟩ := r'
  dsimp only at haddr hcase
  subst haddr
  rcases hcase with ⟨rel, hrel, _, hnode⟩ | ⟨hnot, _⟩
  · have : rel = [] := by simpa using hrel
    subst this
    simp only [store] at hnode
    rw [hnode]
  · exact absurd (List.prefix_refl _) hnot

/-! ## Every string splits into separator-free segments -/

theorem slashJoin_append (xs ys : List Str) :
    slashJoin (xs ++ ys) = slashJoin xs ++ slashJoin ys := by
  induction xs with
  | nil => rfl
  | cons x rest ih => simp [slashJoin, ih]

theorem getLast?_cons_of_ne_nil {α : Type} (x : α) {l : List α} (h : l ≠ []) :
    (x :: l).getLast? = l.getLast? := by
  cases l with
  | nil => exact absurd rfl h
  | cons a b => exact List.getLast?_cons_cons

/-- Any text is `s0/s1/.../sk` for separator-free `s0, ..., sk`; the last piece
is empty only when the text is empty or ends with a separator. -/
theorem exists_segs (r : Str) :
    ∃ s rest, r = s ++ slashJoin rest ∧ '/' ∉ s ∧ (∀ x ∈ rest, '/' ∉ x) ∧
      ((s :: rest).getLast? = some [] → r = [] ∨ r.getLast? = some '/') := by
  induction r with
  | nil => exact ⟨[], [], rfl, by simp, by simp, fun _ => Or.inl rfl⟩
  | cons x r' ih =>
    obtain ⟨s', rest', hr', hs', hrest', hlast'⟩ := ih
    by_cases hx : x = '/'
    · subst hx
      refine ⟨[], s' :: rest', by simp [slashJoin, hr'], by simp, ?_, ?_⟩
      · intro y hy
        rcases List.mem_cons.mp hy with rfl | hy
        · exact hs'
        · exact hrest' y hy
      · intro hl
        rw [List.getLast?_cons_cons] at hl
        right
        rcases hlast' hl with h | h
        · simp [h]
        · by_cases hne : r' = []
          · simp [hne]
          · rw [getLast?_cons_of_ne_nil _ hne]; exact h
    · refine ⟨x :: s', rest', by simp [hr'], ?_, hrest', ?_⟩
      · intro hmem
        rcases List.mem_cons.mp hmem with h | h
        · exact hx h.symm
        · exact hs' h
      · intro hl
        cases rest' with
        | nil => simp at hl
        | cons a b =>
          rw [List.getLast?_cons_cons] at hl
          have hl' : (s' :: a :: b).getLast? = some [] := by
            rw [List.getLast?_cons_cons]; exact hl
          have hne : r' ≠ [] := by simp [hr', slashJoin]
          right
          rcases hlast' hl' with h | h
          · exact absurd h hne
          · rw [getLast?_cons_of_ne_nil _ hne]; exact h

/-- Resolving `p + "/" + name`, for a parent path `p` that is empty or has at
least two characters and no final separator, and a non-empty separator-free
`name`: resolve `p`, then look `name` up among the children of the result. -/
theorem traverse_snoc (fs : FileSystem) (p name : Str)
    (hp1 : p.length ≠ 1) (hp2 : p.getLast? ≠ some '/')
    (hn1 : name ≠ []) (hn2 : '/' ∉ name) (hlen : (p ++ '/' :: name).length < 2 ^ 64) :
    fs.traverse (p ++ '/' :: name) =
      match fs.traverse p with
      | .error e => .error e
      | .ok m => traverseStep m name := by
  cases p with
  | nil =>
    have h0 : fs.traverse [] = .ok ⟨[], fs.root⟩ := by
      simp [FileSystem.traverse, traverseLoop]
    have h1 := traverse_segs fs '/' name [] [] hn2 (by simp)
      (Or.inl ⟨rfl, by simpa using hn1⟩) (by simpa [slashJoin] using hlen)
    simp only [slashJoin, List.append_nil] at h1
    rw [List.nil_append, h1, h0, walk_singleton]
  | cons c r =>
    have hr : r ≠ [] := by
      intro h; apply hp1; simp [h]
    have hr2 : r.getLast? ≠ some '/' := by
      rw [← getLast?_cons_of_ne_nil c hr]; exact hp2
    obtain ⟨s, rest, hsplit, hs, hrest, hlast⟩ := exists_segs r
    have hlast' : (s :: rest).getLast? ≠ some [] := fun h =>
      (hlast h).elim hr hr2
    have hlen1 : (c :: s ++ slashJoin rest ++ []).length < 2 ^ 64 := by
      have : (c :: s ++ slashJoin rest ++ []).length ≤ (c :: r ++ '/' :: name).length := by
        simp [hsplit]
      exact lt_of_le_of_lt this hlen
    have hp : fs.traverse (c :: r) = walk ⟨[], fs.root⟩ (s :: rest) := by
      have := traverse_segs fs c s rest [] hs hrest (Or.inl ⟨rfl, hlast'⟩) hlen1
      simpa [hsplit] using this
    have hlast2 : (s :: (rest ++ [name])).getLast? ≠ some [] := by
      rw [getLast?_cons_of_ne_nil _ (by simp), List.getLast?_append]
      simpa using hn1
    have hq : fs.traverse (c :: r ++ '/' :: name)
        = walk ⟨[], fs.root⟩ (s :: (rest ++ [name])) := by
      have hrest2 : ∀ x ∈ rest ++ [name], '/' ∉ x := by
        intro x hx
        rcases List.mem_append.mp hx with h | h
        · exact hrest x h
        · simp at h; subst h; exact hn2
      have heq : c :: r ++ '/' :: name = c :: s ++ slashJoin (rest ++ [name]) ++ [] := by
        simp [hsplit, slashJoin_append, slashJoin]
      rw [heq] at hlen ⊢
      exact traverse_segs fs c s (rest ++ [name]) [] hs hrest2 (Or.inl ⟨rfl, hlast2⟩) hlen
    rw [hq, hp, ← List.cons_append, walk_append]
    cases walk ⟨[], fs.root⟩ (s :: rest) with
    | error e => rfl
    | ok m => exact walk_singleton m name

/-- For every path whose size fits a `size_t` there is a list of segments,
read off the path alone, such that `traverse` on any tree is the walk over
those segments. -/
theorem traverse_eq_walk (path : Str) (hlen : path.length < 2 ^ 64) :
    ∃ segs : List Str, ∀ fs : FileSystem, fs.traverse path = walk ⟨[], fs.root⟩ segs := by
  cases path with
  | nil => exact ⟨[], fun fs => by simp [FileSystem.traverse, traverseLoop, walk]⟩
  | cons c r =>
    by_cases hr : r = []
    · subst hr
      refine ⟨[], fun fs => ?_⟩
      by_cases hc : c = '/'
      · simp [FileSystem.traverse, hc, walk]
      · simp [FileSystem.traverse, hc, walk, traverseLoop]
    · obtain ⟨s, rest, hsplit, hs, hrest, hlast⟩ := exists_segs r
      by_cases hl : (s :: rest).getLast? = some []
      · have hrest_ne : rest ≠ [] := by
          intro h
          subst h
          simp only [List.getLast?_singleton, Option.some.injEq] at hl
          subst hl
          exact hr (by simpa [slashJoin] using hsplit)
        have hl' : rest.getLast? = some [] := by
          rw [← getLast?_cons_of_ne_nil s hrest_ne]; exact hl
        have hdrop : rest.dropLast ++ [[]] = rest :=
          List.dropLast_append_getLast? [] (by simp [hl'])
        have hpath : c :: r = c :: s ++ slashJoin rest.dropLast ++ ['/'] := by
          rw [hsplit]
          conv_lhs => rw [← hdrop]
          simp [slashJoin_append, slashJoin]
        refine ⟨s :: rest.dropLast, fun fs => ?_⟩
        rw [hpath] at hlen ⊢
        exact traverse_segs fs c s rest.dropLast ['/'] hs
          (fun x hx => hrest x (List.mem_of_mem_dropLast hx)) (Or.inr rfl) hlen
      · have hpath : c :: r = c :: s ++ slashJoin rest ++ [] := by simp [hsplit]
        refine ⟨s :: rest, fun fs => ?_⟩
        rw [hpath] at hlen ⊢
        exact traverse_segs fs c s rest [] hs hrest (Or.inl ⟨rfl, hl⟩) hlen

/-- The only failure of `traverse` is `PathNotFound`. -/
theorem traverse_error_kind {fs : FileSystem} {path : Str} {e : Error}
    (hlen : path.length < 2 ^ 64) (h : fs.traverse path = .error e) : e = .PathNotFound := by
  obtain ⟨segs, hsegs⟩ := traverse_eq_walk path hlen
  rw [hsegs fs] at h
  exact walk_error h

/-! ## The outcomes of `write_to_file` and `read_file` -/

theorem write_of_error {fs : FileSystem} {path : Str} {e : Error} (content : Str)
    (h : fs.traverse path = .error e) : fs.write_to_file path content = (.error e, fs) := by
  simp [FileSystem.write_to_file, h]

theorem write_of_directory {fs : FileSystem} {path : Str} {r : NodePtr} (content : Str)
    (h : fs.traverse path = .ok r) (hdir : r.node.is_directory = true) :
    fs.write_to_file path content = (.error .IsADirectory, fs) := by
  simp [FileSystem.write_to_file, h, hdir]

theorem write_of_file {fs : FileSystem} {path : Str} {r : NodePtr} (content : Str)
    (h : fs.traverse path = .ok r) (hfile : r.node.is_directory = false) :
    fs.write_to_file path content
      = (.ok (), ⟨store fs.root r.addr (r.node.append_content content)⟩) := by
  simp [FileSystem.write_to_file, h, hfile]

theorem read_of_error {fs : FileSystem} {path : Str} {e : Error}
    (h : fs.traverse path = .error e) : fs.read_file path = (.error e, fs) := by
  simp [FileSystem.read_file, h]

theorem read_of_directory {fs : FileSystem} {path : Str} {r : NodePtr}
    (h : fs.traverse path = .ok r) (hdir : r.node.is_directory = true) :
    fs.read_file path = (.error .IsADirectory, fs) := by
  simp [FileSystem.read_file, h, hdir]

theorem read_of_file {fs : FileSystem} {path : Str} {r : NodePtr}
    (h : fs.traverse path = .ok r) (hfile : r.node.is_directory = false) :
    fs.read_file path = (.ok r.node.content, fs) := by
  simp [FileSystem.read_file, h, hfile]

/-- After a successful write, the same path resolves to the same position,
now holding the file with the text appended. -/
theorem traverse_after_write {fs : FileSystem} {path : Str} {r : NodePtr} (content : Str)
    (h : fs.traverse path = .ok r) (hfile : r.node.is_directory = false) :
    (fs.write_to_file path content).2.traverse path
      = .ok ⟨r.addr, r.node.append_content content⟩ := by
  rw [write_of_file content h hfile]
  exact traverse_store_self h (by simp [FileSystemNode.append_content])
    (by simp [FileSystemNode.append_content])

/-! ## The three outcomes of `add` -/

theorem add_of_error {fs : FileSystem} {path : Str} {e : Error} (name : Str) (kind : Bool)
    (h : fs.traverse path = .error e) : fs.add path name kind = (.error e, fs) := by
  simp [FileSystem.add, h]

theorem add_of_file {fs : FileSystem} {path : Str} {r : NodePtr} (name : Str) (kind : Bool)
    (h : fs.traverse path = .ok r) (hfile : r.node.is_directory = false) :
    fs.add path name kind = (.error .NotADirectory, fs) := by
  simp [FileSystem.add, h, FileSystemNode.add_child, hfile]

theorem add_of_directory {fs : FileSystem} {path : Str} {r : NodePtr} (name : Str) (kind : Bool)
    (h : fs.traverse path = .ok r) (hdir : r.node.is_directory = true) :
    fs.add path name kind = (.ok (), ⟨store fs.root r.addr
      (.mk r.node.name r.node.is_directory (r.node.children ++ [.mk name kind [] []])
        r.node.content)⟩) := by
  simp [FileSystem.add, h, FileSystemNode.add_child, hdir, FileSystemNode.init]

theorem add_ok_iff (fs : FileSystem) (path name : Str) (kind : Bool) :
    (fs.add path name kind).1 = .ok () ↔
      ∃ r, fs.traverse path = .ok r ∧ r.node.is_directory = true := by
  cases h : fs.traverse path with
  | error e => simp [add_of_error name kind h]
  | ok r =>
    cases hd : r.node.is_directory with
    | false => simp [add_of_file name kind h hd, hd]
    | true => simp [add_of_directory name kind h hd, hd]

/-- After a successful `add`, the parent path resolves to the same position,
now holding the directory with the new child appended. -/
theorem traverse_parent_after_add {fs : FileSystem} {path : Str} {r : NodePtr}
    (name : Str) (kind : Bool)
    (h : fs.traverse path = .ok r) (hdir : r.node.is_directory = true) :
    (fs.add path name kind).2.traverse path = .ok ⟨r.addr,
      .mk r.node.name r.node.is_directory (r.node.children ++ [.mk name kind [] []])
        r.node.content⟩ := by
  rw [add_of_directory name kind h hdir]
  exact traverse_store_self h rfl (List.prefix_append _ _)

/-- After a successful `add` under a suitable parent path, with a suitable
name that no sibling bears, `parent + "/" + name` resolves to the new node. -/
theorem traverse_child_after_add {fs : FileSystem} {p : Str} {r : NodePtr}
    (name : Str) (kind : Bool)
    (h : fs.traverse p = .ok r) (hdir : r.node.is_directory = true)
    (hp1 : p.length ≠ 1) (hp2 : p.getLast? ≠ some '/')
    (hn1 : name ≠ []) (hn2 : '/' ∉ name)
    (hdup : ∀ c ∈ r.node.children, c.name ≠ name)
    (hlen : (p ++ '/' :: name).length < 2 ^ 64) :
    (fs.add p name kind).2.traverse (p ++ '/' :: name)
      = .ok ⟨r.addr ++ [r.node.children.length], .mk name kind [] []⟩ := by
  rw [traverse_snoc _ p name hp1 hp2 hn1 hn2 hlen, traverse_parent_after_add name kind h hdir]
  simp only [traverseStep, children_mk]
  rw [findChild_append_of_none _ (findChild_eq_none.mpr hdup)]
  simp [findChild]

/-! ## What a write through a pointer changes -/

/-- A write strictly below `x` keeps the name, kind, content and number of
children of `x`. -/
theorem store_cons_members (x new : FileSystemNode) (i : Nat) (rel : List Nat) :
    (store x (i :: rel) new).name = x.name ∧
      (store x (i :: rel) new).is_directory = x.is_directory ∧
      (store x (i :: rel) new).content = x.content ∧
      (store x (i :: rel) new).children.length = x.children.length := by
  cases x with
  | mk nm isd cs ct =>
    simp only [store]
    cases cs[i]? <;> simp

theorem nodeAt_append_some {root x : FileSystemNode} {q rel : List Nat}
    (h : nodeAt root (q ++ rel) = some x) :
    ∃ y, nodeAt root q = some y ∧ nodeAt y rel = some x := by
  rw [nodeAt_append] at h
  cases hq : nodeAt root q with
  | none => rw [hq] at h; cases h
  | some y => rw [hq] at h; exact ⟨y, rfl, h⟩

theorem nodeAt_leaf {n x : FileSystemNode} {q : List Nat}
    (hleaf : n.children = []) (h : nodeAt n q = some x) : q = [] := by
  cases q with
  | nil => rfl
  | cons i rest => simp [nodeAt, hleaf] at h

/-- The positions of the tree after the object `d` at `addr` got `new` as an
additional last child: every old node is where it was, with its name, kind and
content, and with its children but for `d`; the only new positions are those
of `new`. -/
theorem nodeAt_store_push {root d : FileSystemNode} {addr : List Nat} (new : FileSystemNode)
    (hd : nodeAt root addr = some d) :
    (∀ q x, nodeAt root q = some x →
      ∃ x', nodeAt (store root addr
          (.mk d.name d.is_directory (d.children ++ [new]) d.content)) q = some x' ∧
        x'.name = x.name ∧ x'.is_directory = x.is_directory ∧ x'.content = x.content ∧
        x'.children.length = x.children.length + (if q = addr then 1 else 0) ∧
        (¬ q <+: addr → x' = x)) ∧
    (∀ q x', nodeAt (store root addr
          (.mk d.name d.is_directory (d.children ++ [new]) d.content)) q = some x' →
      (∃ q', q = addr ++ d.children.length :: q' ∧ nodeAt new q' = some x') ∨
        ∃ x, nodeAt root q = some x) := by
  constructor
  · intro q x hx
    by_cases h1 : addr <+: q
    · obtain ⟨q', rfl⟩ := h1
      rw [nodeAt_store_below _ q' hd]
      rw [nodeAt_append, hd] at hx
      simp only [Option.some_bind] at hx
      cases q' with
      | nil =>
        simp only [nodeAt, Option.some.injEq] at hx
        subst hx
        exact ⟨_, rfl, by simp⟩
      | cons i rest =>
        simp only [nodeAt] at hx ⊢
        cases hci : d.children[i]? with
        | none => rw [hci] at hx; cases hx
        | some ci =>
          rw [hci] at hx
          have hlt : i < d.children.length := by
            rcases List.getElem?_eq_some.mp hci with ⟨h, _⟩
            exact h
          simp only [children_mk, List.getElem?_append_left hlt, hci]
          exact ⟨x, hx, rfl, rfl, rfl, by simp, fun _ => rfl⟩
    · by_cases h2 : q <+: addr
      · obtain ⟨rel, rfl⟩ := h2
        rw [nodeAt_store_above q rel _ hd, hx]
        cases rel with
        | nil => exact absurd (by simp) h1
        | cons i rest =>
          obtain ⟨e1, e2, e3, e4⟩ := store_cons_members x
            (.mk d.name d.is_directory (d.children ++ [new]) d.content) i rest
          exact ⟨_, rfl, e1, e2, e3, by simp [e4], fun hn => absurd (List.prefix_append _ _) hn⟩
      · rw [nodeAt_store_apart _ _ _ _ h1 h2]
        refine ⟨x, hx, rfl, rfl, rfl, ?_, fun _ => rfl⟩
        have : q ≠ addr := fun e => h1 (e ▸ List.prefix_refl _)
        simp [this]
  · intro q x' hx'
    by_cases h1 : addr <+: q
    · obtain ⟨q', rfl⟩ := h1
      rw [nodeAt_store_below _ q' hd] at hx'
      cases q' with
      | nil => exact Or.inr ⟨d, by simpa using hd⟩
      | cons i rest =>
        simp only [nodeAt, children_mk] at hx'
        rcases Nat.lt_trichotomy i d.children.length with hlt | heq | hgt
        · rw [List.getElem?_append_left hlt] at hx'
          right
          refine ⟨x', ?_⟩
          rw [nodeAt_append, hd]
          simpa [nodeAt] using hx'
        · subst heq
          left
          refine ⟨rest, rfl, ?_⟩
          simpa using hx'
        · have : (d.children ++ [new])[i]? = none :=
            List.getElem?_eq_none (by simp; omega)
          rw [this] at hx'
          cases hx'
    · right
      by_cases h2 : q <+: addr
      · obtain ⟨rel, rfl⟩ := h2
        obtain ⟨y, hy, _⟩ := nodeAt_append_some hd
        exact ⟨y, hy⟩
      · rw [nodeAt_store_apart _ _ _ _ h1 h2] at hx'
        exact ⟨x', hx'⟩

/-! ## The lines of `display` -/

theorem displayChildren_eq_flatMap (cs : List FileSystemNode) (indent : Nat) :
    displayChildren cs indent = cs.flatMap fun c => displayNode c (indent + 1) := by
  induction cs with
  | nil => simp [displayChildren]
  | cons c rest ih => simp [displayChildren, ih]

theorem displayNode_eq (node : FileSystemNode) (indent : Nat) :
    displayNode node indent = (indent, node.name) ::
      (if node.is_directory then node.children.flatMap fun c => displayNode c (indent + 1)
        else []) := by
  cases node with
  | mk nm isd cs ct =>
    rw [displayNode, displayChildren_eq_flatMap]
    simp

mutual
theorem displayNode_length : ∀ (n : FileSystemNode) (d : Nat),
    (displayNode n d).length = (displayNode n 0).length
  | .mk nm isd cs ct, d => by
    cases isd with
    | false => simp [displayNode]
    | true => simp [displayNode, displayChildren_length cs d]
theorem displayChildren_length : ∀ (cs : List FileSystemNode) (d : Nat),
    (displayChildren cs d).length = (displayChildren cs 0).length
  | [], d => rfl
  | c :: rest, d => by
    simp only [displayChildren, List.length_append]
    rw [displayNode_length c (d + 1), displayNode_length c (0 + 1), displayChildren_length rest d]
end

theorem filesAreLeaves_child {nm : Str} {isd : Bool} {cs : List FileSystemNode} {ct : Str}
    {i : Nat} {ci : FileSystemNode}
    (h : filesAreLeaves (.mk nm isd cs ct) = true) (hci : cs[i]? = some ci) :
    isd = true ∧ filesAreLeaves ci = true := by
  simp only [filesAreLeaves, Bool.and_eq_true, Bool.or_eq_true] at h
  obtain ⟨hdir, hall⟩ := h
  constructor
  · rcases hdir with h | h
    · exact h
    · cases cs with
      | nil => simp at hci
      | cons a b => simp at h
  · clear hdir
    induction cs generalizing i with
    | nil => simp at hci
    | cons a b ih =>
      simp only [allFilesAreLeaves, Bool.and_eq_true] at hall
      cases i with
      | zero =>
        simp only [List.getElem?_cons_zero, Option.some.injEq] at hci
        exact hci ▸ hall.1
      | succ i =>
        simp only [List.getElem?_cons_succ] at hci
        exact ih hci hall.2

/-- The `j`-th element contributed by the `i`-th member of a `flatMap`. -/
theorem getElem?_flatMap {α β : Type} (f : α → List β) (cs : List α) (i : Nat) (ci : α)
    (hci : cs[i]? = some ci) (j : Nat) (hj : j < (f ci).length) :
    (cs.flatMap f)[((cs.take i).map fun c => (f c).length).sum + j]? = (f ci)[j]? := by
  induction cs generalizing i with
  | nil => simp at hci
  | cons c rest ih =>
    cases i with
    | zero =>
      simp only [List.getElem?_cons_zero, Option.some.injEq] at hci
      subst hci
      simp [List.getElem?_append_left hj]
    | succ i =>
      simp only [List.getElem?_cons_succ] at hci
      simp only [List.flatMap_cons, List.take_succ_cons, List.map_cons, List.sum_cons]
      rw [Nat.add_assoc, List.getElem?_append_right (by omega)]
      simpa using ih i hci

/-- In a tree where files own no children, the line that `display` emits
for the node at position `addr` carries the starting depth plus the length of
`addr`, and the name of that node. -/
theorem displayNode_lineIndex (addr : List Nat) :
    ∀ (root x : FileSystemNode) (d : Nat), filesAreLeaves root = true →
      nodeAt root addr = some x →
      (displayNode root d)[lineIndex root addr]? = some (d + addr.length, x.name) := by
  induction addr with
  | nil =>
    intro root x d _ hx
    simp only [nodeAt, Option.some.injEq] at hx
    subst hx
    rw [displayNode_eq]
    simp [lineIndex]
  | cons i rest ih =>
    intro root x d hwf hx
    cases root with
    | mk nm isd cs ct =>
      simp only [nodeAt, children_mk] at hx
      cases hci : cs[i]? with
      | none => rw [hci] at hx; cases hx
      | some ci =>
        rw [hci] at hx
        obtain ⟨hisd, hwfc⟩ := filesAreLeaves_child hwf hci
        subst hisd
        have hih := ih ci x (d + 1) hwfc hx
        have hj : lineIndex ci rest < (displayNode ci (d + 1)).length := by
          by_contra hge
          rw [List.getElem?_eq_none (by omega)] at hih
          cases hih
        have hsum : ((cs.take i).map lineCount).sum
            = ((cs.take i).map fun c => (displayNode c (d + 1)).length).sum := by
          congr 1
          apply List.map_congr_left
          intro c _
          exact (displayNode_length c (d + 1)).symm
        have hflat := getElem?_flatMap (fun c => displayNode c (d + 1)) cs i ci hci _ hj
        rw [displayNode_eq]
        simp only [lineIndex, children_mk, hci, is_directory_mk, if_true, name_mk]
        rw [hsum, Nat.add_assoc, Nat.add_comm 1, List.getElem?_cons_succ, hflat, hih]
        simp [Nat.add_assoc, Nat.add_comm 1]

theorem traverseStep_ok {c r : NodePtr} {part : Str} (h : traverseStep c part = .ok r) :
    r.addr.length = c.addr.length + 1 ∧ r.node.name = part := by
  unfold traverseStep at h
  cases hf : findChild part c.node.children with
  | none => rw [hf] at h; cases h
  | some q =>
    obtain ⟨i, ch⟩ := q
    rw [hf] at h
    cases h
    exact ⟨by simp, (findChild_eq_some hf).2.1⟩

theorem walk_addr_length {c r : NodePtr} {segs : List Str} (h : walk c segs = .ok r) :
    r.addr.length = c.addr.length + segs.length := by
  induction segs generalizing c with
  | nil => cases h; rfl
  | cons s rest ih =>
    rw [walk] at h
    cases hst : traverseStep c s with
    | error e => rw [hst] at h; cases h
    | ok next =>
      rw [hst] at h
      rw [ih h, (traverseStep_ok hst).1, List.length_cons]
      omega

theorem walk_last_name {c r : NodePtr} {segs : List Str} (hne : segs ≠ [])
    (h : walk c segs = .ok r) : r.node.name = segs.getLast hne := by
  induction segs generalizing c with
  | nil => exact absurd rfl hne
  | cons s rest ih =>
    rw [walk] at h
    cases hst : traverseStep c s with
    | error e => rw [hst] at h; cases h
    | ok next =>
      rw [hst] at h
      cases rest with
      | nil =>
        cases h
        simpa using (traverseStep_ok hst).2
      | cons a b =>
        rw [List.getLast_cons (by simp)]
        exact ih (by simp) h

/-! ## Path resolution -/









/-- C1: for every tree and every path `"/" + s1 + "/" + ... + "/" + sk` with
`k >= 1`, every segment free of `/` and the last segment non-empty (the path
being a `std::string`, its size fits a `size_t`), `traverse` is the left fold
that starts at the root and replaces the current node, segment after segment,
by its first child in insertion order whose name equals the segment; the
only failure is `PathNotFound`, raised at the first segment without a match. -/
theorem C1_traverse_is_first_match_fold (fs : FileSystem) (segs : List Str)
    (hk : segs ≠ []) (hfree : ∀ s ∈ segs, '/' ∉ s) (hlast : segs.getLast? ≠ some [])
    (hlen : (slashJoin segs).length < 2 ^ 64) :
    fs.traverse (slashJoin segs) = resolveFold fs.root segs ∧
      (∀ e, fs.traverse (slashJoin segs) = .error e → e = .PathNotFound) ∧
      (∀ r, fs.traverse (slashJoin segs) = .ok r → nodeAt fs.root r.addr = some r.node) := by
  obtain ⟨s, rest, rfl⟩ : ∃ s rest, segs = s :: rest := by
    cases segs with
    | nil => exact absurd rfl hk
    | cons s rest => exact ⟨s, rest, rfl⟩
  have hpath : slashJoin (s :: rest) = '/' :: s ++ slashJoin rest ++ [] := by
    simp [slashJoin]
  have hwalk : fs.traverse (slashJoin (s :: rest)) = walk ⟨[], fs.root⟩ (s :: rest) := by
    rw [hpath] at hlen ⊢
    exact traverse_segs fs '/' s rest [] (hfree s (by simp))
      (fun x hx => hfree x (by simp [hx])) (Or.inl ⟨rfl, hlast⟩) hlen
  refine ⟨by rw [hwalk, resolveFold_eq_walk], ?_, fun r h => traverse_nodeAt h⟩
  intro e he
  rw [hwalk] at he
  exact walk_error he

/-- C1 at the path `/home/user1/file1.txt` of the usage example. -/
theorem C1_witness :
    exampleTree.traverse (slashJoin ["home".toList, "user1".toList, "file1.txt".toList])
        = resolveFold exampleTree.root ["home".toList, "user1".toList, "file1.txt".toList] ∧
      (∀ e, exampleTree.traverse
          (slashJoin ["home".toList, "user1".toList, "file1.txt".toList]) = .error e →
        e = .PathNotFound) ∧
      (∀ r, exampleTree.traverse
          (slashJoin ["home".toList, "user1".toList, "file1.txt".toList]) = .ok r →
        nodeAt exampleTree.root r.addr = some r.node) :=
  C1_traverse_is_first_match_fold exampleTree
    ["home".toList, "user1".toList, "file1.txt".toList]
    (by decide) (by decide) (by decide) (by decide)

/-- C2 (as stated, refuted): on the fresh tree `add("/", "home", Directory)`
succeeds, yet `"/" + "/" + "home"` does not resolve in the resulting tree. -/
theorem C2_counterexample :
    (FileSystem.init.add "/".toList "home".toList true).1 = .ok () ∧
      (FileSystem.init.add "/".toList "home".toList true).2.traverse
          ("/".toList ++ "/".toList ++ "home".toList) = .error .PathNotFound :=
  ⟨rfl, rfl⟩

/-- C2 (amended): if `add(parent_path, name, kind)` succeeds, where
`parent_path` is not a one-character string (so not `"/"`) and does not end in
`/`, `name` is non-empty and free of `/`, and no child of the directory that
`parent_path` resolves to already bears `name`, then in the resulting tree
`parent_path + "/" + name` resolves to the newly attached node: the last child
of that directory, with name `name`, kind `kind`, empty content, no children. -/
theorem C2_add_then_resolve_child (fs : FileSystem) (p name : Str) (kind : Bool) (r : NodePtr)
    (hadd : (fs.add p name kind).1 = .ok ()) (hr : fs.traverse p = .ok r)
    (hp1 : p.length ≠ 1) (hp2 : p.getLast? ≠ some '/')
    (hn1 : name ≠ []) (hn2 : '/' ∉ name)
    (hdup : ∀ c ∈ r.node.children, c.name ≠ name)
    (hlen : (p ++ ['/'] ++ name).length < 2 ^ 64) :
    (fs.add p name kind).2.traverse (p ++ ['/'] ++ name)
        = .ok ⟨r.addr ++ [r.node.children.length], .mk name kind [] []⟩ ∧
      nodeAt (fs.add p name kind).2.root (r.addr ++ [r.node.children.length])
        = some (.mk name kind [] []) := by
  have hdir : r.node.is_directory = true := by
    obtain ⟨r', hr', hd⟩ := (add_ok_iff fs p name kind).mp hadd
    rw [hr] at hr'
    cases hr'
    exact hd
  have hpath : p ++ ['/'] ++ name = p ++ '/' :: name := by simp
  rw [hpath] at hlen ⊢
  have key := traverse_child_after_add name kind hr hdir hp1 hp2 hn1 hn2 hdup hlen
  exact ⟨key, traverse_nodeAt key⟩

/-- C2 (amended) at `add("/home", "user1", Directory)` of the usage example. -/
theorem C2_witness :
    (homeTree.add "/home".toList "user1".toList true).2.traverse
        ("/home".toList ++ ['/'] ++ "user1".toList)
        = .ok ⟨[0] ++ [0], .mk "user1".toList true [] []⟩ ∧
      nodeAt (homeTree.add "/home".toList "user1".toList true).2.root ([0] ++ [0])
        = some (.mk "user1".toList true [] []) :=
  C2_add_then_resolve_child homeTree "/home".toList "user1".toList true
    ⟨[0], .mk "home".toList true [] []⟩ rfl rfl
    (by decide) (by decide) (by decide) (by decide) (by decide) (by decide)

/-! ## Writing and reading -/

/-- C3: for every tree, every path `p` that resolves to a File whose content
is `s`, and all strings `a` and `b`: `write(p, a)` and then `write(p, b)` both
succeed and a following `read(p)` returns exactly `s ++ a ++ b`; when the
file is empty (as right after `add`) that is exactly `a ++ b`. -/
theorem C3_write_twice_then_read (fs : FileSystem) (p a b : Str) (r : NodePtr)
    (hr : fs.traverse p = .ok r) (hfile : r.node.is_directory = false) :
    (fs.write_to_file p a).1 = .ok () ∧
      ((fs.write_to_file p a).2.write_to_file p b).1 = .ok () ∧
      (((fs.write_to_file p a).2.write_to_file p b).2.read_file p).1
        = .ok (r.node.content ++ a ++ b) ∧
      (r.node.content = [] →
        (((fs.write_to_file p a).2.write_to_file p b).2.read_file p).1 = .ok (a ++ b)) := by
  have h1 := traverse_after_write a hr hfile
  have hf1 : (NodePtr.mk r.addr (r.node.append_content a)).node.is_directory = false := by
    simpa [FileSystemNode.append_content] using hfile
  have h2 := traverse_after_write b h1 hf1
  have hf2 : (NodePtr.mk r.addr ((r.node.append_content a).append_content b)).node.is_directory
      = false := by
    simpa [FileSystemNode.append_content] using hfile
  have hread := read_of_file h2 hf2
  have hcontent : (((fs.write_to_file p a).2.write_to_file p b).2.read_file p).1
      = .ok (r.node.content ++ a ++ b) := by
    rw [hread]
    simp [FileSystemNode.append_content]
  refine ⟨by rw [write_of_file a hr hfile], by rw [write_of_file b h1 hf1], hcontent, ?_⟩
  intro hempty
  rw [hcontent, hempty]
  rfl

/-- C3 at the two writes to `/home/user1/file1.txt` of the usage example. -/
theorem C3_witness :
    (exampleTree.write_to_file "/home/user1/file1.txt".toList "Hello, World!\n".toList).1
        = .ok () ∧
      ((exampleTree.write_to_file "/home/user1/file1.txt".toList
          "Hello, World!\n".toList).2.write_to_file "/home/user1/file1.txt".toList
          "This is the second line.\n".toList).1 = .ok () ∧
      (((exampleTree.write_to_file "/home/user1/file1.txt".toList
          "Hello, World!\n".toList).2.write_to_file "/home/user1/file1.txt".toList
          "This is the second line.\n".toList).2.read_file "/home/user1/file1.txt".toList).1
        = .ok (FileSystemNode.content (.mk "file1.txt".toList false [] [])
            ++ "Hello, World!\n".toList ++ "This is the second line.\n".toList) ∧
      (FileSystemNode.content (.mk "file1.txt".toList false [] []) = [] →
        (((exampleTree.write_to_file "/home/user1/file1.txt".toList
          "Hello, World!\n".toList).2.write_to_file "/home/user1/file1.txt".toList
          "This is the second line.\n".toList).2.read_file "/home/user1/file1.txt".toList).1
        = .ok ("Hello, World!\n".toList ++ "This is the second line.\n".toList)) :=
  C3_write_twice_then_read exampleTree "/home/user1/file1.txt".toList
    "Hello, World!\n".toList "This is the second line.\n".toList
    ⟨[0, 0, 0], .mk "file1.txt".toList false [] []⟩ rfl rfl

/-! ## Failures leave the tree as it was -/

/-- C4: for every tree, path `p` (of a size that fits a `size_t`), name `n`
and kind `k`: `add(p, n, k)` succeeds exactly when `p` resolves to a
Directory; it fails with `PathNotFound` when `p` does not resolve and with
`NotADirectory` when `p` resolves to a File; in both failure cases the file
system after the call is the one before it. -/
theorem C4_add_outcomes (fs : FileSystem) (p n : Str) (k : Bool)
    (hlen : p.length < 2 ^ 64) :
    ((fs.add p n k).1 = .ok () ↔ ∃ r, fs.traverse p = .ok r ∧ r.node.is_directory = true) ∧
      ((∀ r, fs.traverse p ≠ .ok r) → fs.add p n k = (.error .PathNotFound, fs)) ∧
      (∀ r, fs.traverse p = .ok r → r.node.is_directory = false →
        fs.add p n k = (.error .NotADirectory, fs)) := by
  refine ⟨add_ok_iff fs p n k, ?_, fun r hr hfile => add_of_file n k hr hfile⟩
  intro hnone
  cases h : fs.traverse p with
  | ok r => exact absurd h (hnone r)
  | error e =>
    rw [add_of_error n k h, traverse_error_kind hlen h]

/-- C4 at a path that does not resolve in the tree of the usage example. -/
theorem C4_witness :
    ((exampleTree.add "/nope".toList "x".toList false).1 = .ok () ↔
        ∃ r, exampleTree.traverse "/nope".toList = .ok r ∧ r.node.is_directory = true) ∧
      ((∀ r, exampleTree.traverse "/nope".toList ≠ .ok r) →
        exampleTree.add "/nope".toList "x".toList false = (.error .PathNotFound, exampleTree)) ∧
      (∀ r, exampleTree.traverse "/nope".toList = .ok r → r.node.is_directory = false →
        exampleTree.add "/nope".toList "x".toList false
          = (.error .NotADirectory, exampleTree)) :=
  C4_add_outcomes exampleTree "/nope".toList "x".toList false (by decide)

/-- C5: for every tree, path `p` (of a size that fits a `size_t`) and content
`c`: `write(p, c)` and `read(p)` fail with `IsADirectory` when `p` resolves to
a Directory (the path `"/"` included, the root being a directory), fail with
`PathNotFound` when `p` does not resolve, and succeed exactly when `p`
resolves to a File; a failed write leaves the file system as it was, so a
`read(p)` after a failed `write(p, c)` on a Directory still fails with
`IsADirectory`. -/
theorem C5_write_read_outcomes (fs : FileSystem) (p c : Str) (hlen : p.length < 2 ^ 64) :
    (∀ r, fs.traverse p = .ok r → r.node.is_directory = true →
        fs.write_to_file p c = (.error .IsADirectory, fs) ∧
        fs.read_file p = (.error .IsADirectory, fs) ∧
        ((fs.write_to_file p c).2.read_file p).1 = .error .IsADirectory) ∧
      (fs.root.is_directory = true →
        fs.write_to_file ['/'] c = (.error .IsADirectory, fs) ∧
        fs.read_file ['/'] = (.error .IsADirectory, fs)) ∧
      ((∀ r, fs.traverse p ≠ .ok r) →
        fs.write_to_file p c = (.error .PathNotFound, fs) ∧
        fs.read_file p = (.error .PathNotFound, fs)) ∧
      ((fs.write_to_file p c).1 = .ok () ↔
        ∃ r, fs.traverse p = .ok r ∧ r.node.is_directory = false) ∧
      ((∃ s, (fs.read_file p).1 = .ok s) ↔
        ∃ r, fs.traverse p = .ok r ∧ r.node.is_directory = false) ∧
      (∀ e, (fs.write_to_file p c).1 = .error e → (fs.write_to_file p c).2 = fs) := by
  refine ⟨?_, ?_, ?_, ?_, ?_, ?_⟩
  · intro r hr hdir
    refine ⟨write_of_directory c hr hdir, read_of_directory hr hdir, ?_⟩
    rw [write_of_directory c hr hdir, read_of_directory hr hdir]
  · intro hroot
    have hr : fs.traverse ['/'] = .ok ⟨[], fs.root⟩ := by simp [FileSystem.traverse]
    exact ⟨write_of_directory c hr hroot, read_of_directory hr hroot⟩
  · intro hnone
    cases h : fs.traverse p with
    | ok r => exact absurd h (hnone r)
    | error e =>
      rw [write_of_error c h, read_of_error h, traverse_error_kind hlen h]
      exact ⟨rfl, rfl⟩
  · cases h : fs.traverse p with
    | error e => simp [write_of_error c h]
    | ok r =>
      cases hd : r.node.is_directory with
      | true => simp [write_of_directory c h hd, hd]
      | false => simp [write_of_file c h hd, hd]
  · cases h : fs.traverse p with
    | error e => simp [read_of_error h]
    | ok r =>
      cases hd : r.node.is_directory with
      | true => simp [read_of_directory h hd, hd]
      | false => simp [read_of_file h hd, hd]
  · intro e he
    cases h : fs.traverse p with
    | error e' => rw [write_of_error c h]
    | ok r =>
      cases hd : r.node.is_directory with
      | true => rw [write_of_directory c h hd]
      | false => rw [write_of_file c h hd] at he; cases he

/-- C5 at the directory `/home` of the usage example. -/
theorem C5_witness :
    (∀ r, exampleTree.traverse "/home".toList = .ok r → r.node.is_directory = true →
        exampleTree.write_to_file "/home".toList "x".toList = (.error .IsADirectory, exampleTree) ∧
        exampleTree.read_file "/home".toList = (.error .IsADirectory, exampleTree) ∧
        ((exampleTree.write_to_file "/home".toList "x".toList).2.read_file "/home".toList).1
          = .error .IsADirectory) ∧
      (exampleTree.root.is_directory = true →
        exampleTree.write_to_file ['/'] "x".toList = (.error .IsADirectory, exampleTree) ∧
        exampleTree.read_file ['/'] = (.error .IsADirectory, exampleTree)) ∧
      ((∀ r, exampleTree.traverse "/home".toList ≠ .ok r) →
        exampleTree.write_to_file "/home".toList "x".toList
          = (.error .PathNotFound, exampleTree) ∧
        exampleTree.read_file "/home".toList = (.error .PathNotFound, exampleTree)) ∧
      ((exampleTree.write_to_file "/home".toList "x".toList).1 = .ok () ↔
        ∃ r, exampleTree.traverse "/home".toList = .ok r ∧ r.node.is_directory = false) ∧
      ((∃ s, (exampleTree.read_file "/home".toList).1 = .ok s) ↔
        ∃ r, exampleTree.traverse "/home".toList = .ok r ∧ r.node.is_directory = false) ∧
      (∀ e, (exampleTree.write_to_file "/home".toList "x".toList).1 = .error e →
        (exampleTree.write_to_file "/home".toList "x".toList).2 = exampleTree) :=
  C5_write_read_outcomes exampleTree "/home".toList "x".toList (by decide)

/-! ## The frame of `add` -/

/-- C6: for every tree and every `add(p, n, k)` where `p` resolves to a
Directory `d`: in the resulting tree `d` has the old children followed by
exactly one new node with name `n`, kind `k`, empty content and no children;
every node of the old tree is at the position it had (so children keep their
order), with the same name, kind and content and the same number of children
(one more for `d`), and is the very same subtree unless it is `d` or an
ancestor of `d`; the position of the new node is the only new position. -/
theorem C6_add_frame (fs : FileSystem) (p n : Str) (k : Bool) (r : NodePtr)
    (hr : fs.traverse p = .ok r) (hdir : r.node.is_directory = true) :
    nodeAt (fs.add p n k).2.root r.addr
        = some (.mk r.node.name true (r.node.children ++ [.mk n k [] []]) r.node.content) ∧
      nodeAt (fs.add p n k).2.root (r.addr ++ [r.node.children.length])
        = some (.mk n k [] []) ∧
      (∀ q x, nodeAt fs.root q = some x →
        ∃ x', nodeAt (fs.add p n k).2.root q = some x' ∧
          x'.name = x.name ∧ x'.is_directory = x.is_directory ∧ x'.content = x.content ∧
          x'.children.length = x.children.length + (if q = r.addr then 1 else 0) ∧
          (¬ q <+: r.addr → x' = x)) ∧
      (∀ q x', nodeAt (fs.add p n k).2.root q = some x' →
        q = r.addr ++ [r.node.children.length] ∨ ∃ x, nodeAt fs.root q = some x) := by
  have hd := traverse_nodeAt hr
  have hpush := nodeAt_store_push (.mk n k [] []) hd
  have hself := nodeAt_store_below
    (.mk r.node.name r.node.is_directory (r.node.children ++ [.mk n k [] []]) r.node.content)
    [] hd
  have hchild := nodeAt_store_below
    (.mk r.node.name r.node.is_directory (r.node.children ++ [.mk n k [] []]) r.node.content)
    [r.node.children.length] hd
  rw [add_of_directory n k hr hdir]
  refine ⟨?_, ?_, hpush.1, ?_⟩
  · simpa [nodeAt, hdir] using hself
  · simpa [nodeAt] using hchild
  · intro q x' hx'
    rcases hpush.2 q x' hx' with ⟨q', rfl, hq'⟩ | hold
    · left
      have : q' = [] := nodeAt_leaf (by simp) hq'
      rw [this]
    · exact Or.inr hold

/-- C6 at `add("/home", "user1", Directory)` of the usage example. -/
theorem C6_witness :
    nodeAt (homeTree.add "/home".toList "user1".toList true).2.root [0]
        = some (.mk (FileSystemNode.name (.mk "home".toList true [] [])) true
            (FileSystemNode.children (.mk "home".toList true [] [])
              ++ [.mk "user1".toList true [] []])
            (FileSystemNode.content (.mk "home".toList true [] []))) ∧
      nodeAt (homeTree.add "/home".toList "user1".toList true).2.root
          ([0] ++ [(FileSystemNode.children (.mk "home".toList true [] [])).length])
        = some (.mk "user1".toList true [] []) ∧
      (∀ q x, nodeAt homeTree.root q = some x →
        ∃ x', nodeAt (homeTree.add "/home".toList "user1".toList true).2.root q = some x' ∧
          x'.name = x.name ∧ x'.is_directory = x.is_directory ∧ x'.content = x.content ∧
          x'.children.length = x.children.length + (if q = [0] then 1 else 0) ∧
          (¬ q <+: [0] → x' = x)) ∧
      (∀ q x', nodeAt (homeTree.add "/home".toList "user1".toList true).2.root q = some x' →
        q = [0] ++ [(FileSystemNode.children (.mk "home".toList true [] [])).length] ∨
          ∃ x, nodeAt homeTree.root q = some x) :=
  C6_add_frame homeTree "/home".toList "user1".toList true
    ⟨[0], .mk "home".toList true [] []⟩ rfl rfl

/-! ## A final separator -/

/-- C7 (as stated, refuted): in the tree holding only the empty directory
`/home`, which has no child named `""`, the path `"/home/"` does not fail:
it resolves to the directory `/home` itself. -/
theorem C7_counterexample :
    homeTree.traverse "/home/".toList = .ok ⟨[0], .mk "home".toList true [] []⟩ ∧
      ∀ c ∈ FileSystemNode.children (.mk "home".toList true [] []), c.name ≠ [] :=
  ⟨rfl, by decide⟩

/-- C7 (amended): for every tree and every path
`"/" + s1 + "/" + ... + "/" + sk + "/"` (`k >= 1`, segments free of `/`, of a
size that fits a `size_t`), `traverse` looks up `s1, ..., sk` and nothing
else: the empty text after the final `/` is not looked up, the result is the
first-match fold over `s1, ..., sk`, the only failure is `PathNotFound`, and
when `sk` is non-empty the result is that of the path without its final `/`. -/
theorem C7_final_separator_ignored (fs : FileSystem) (segs : List Str)
    (hk : segs ≠ []) (hfree : ∀ s ∈ segs, '/' ∉ s)
    (hlen : (slashJoin segs ++ ['/']).length < 2 ^ 64) :
    fs.traverse (slashJoin segs ++ ['/']) = resolveFold fs.root segs ∧
      (∀ e, fs.traverse (slashJoin segs ++ ['/']) = .error e → e = .PathNotFound) ∧
      (segs.getLast? ≠ some [] →
        fs.traverse (slashJoin segs ++ ['/']) = fs.traverse (slashJoin segs)) := by
  obtain ⟨s, rest, rfl⟩ : ∃ s rest, segs = s :: rest := by
    cases segs with
    | nil => exact absurd rfl hk
    | cons s rest => exact ⟨s, rest, rfl⟩
  have hs : '/' ∉ s := hfree s (by simp)
  have hrest : ∀ x ∈ rest, '/' ∉ x := fun x hx => hfree x (by simp [hx])
  have hpath : slashJoin (s :: rest) ++ ['/'] = '/' :: s ++ slashJoin rest ++ ['/'] := by
    simp [slashJoin]
  have hwalk : fs.traverse (slashJoin (s :: rest) ++ ['/'])
      = walk ⟨[], fs.root⟩ (s :: rest) := by
    rw [hpath] at hlen ⊢
    exact traverse_segs fs '/' s rest ['/'] hs hrest (Or.inr rfl) hlen
  refine ⟨by rw [hwalk, resolveFold_eq_walk], ?_, ?_⟩
  · intro e he
    rw [hwalk] at he
    exact walk_error he
  · intro hlast
    have hpath' : slashJoin (s :: rest) = '/' :: s ++ slashJoin rest ++ [] := by
      simp [slashJoin]
    have hlen' : ('/' :: s ++ slashJoin rest ++ []).length < 2 ^ 64 := by
      rw [hpath] at hlen
      refine lt_of_le_of_lt ?_ hlen
      simp
    rw [hwalk, hpath']
    exact (traverse_segs fs '/' s rest [] hs hrest (Or.inl ⟨rfl, hlast⟩) hlen').symm

/-- C7 (amended) at the path `/home/`. -/
theorem C7_witness :
    homeTree.traverse (slashJoin ["home".toList] ++ ['/'])
        = resolveFold homeTree.root ["home".toList] ∧
      (∀ e, homeTree.traverse (slashJoin ["home".toList] ++ ['/']) = .error e →
        e = .PathNotFound) ∧
      (["home".toList].getLast? ≠ some [] →
        homeTree.traverse (slashJoin ["home".toList] ++ ['/'])
          = homeTree.traverse (slashJoin ["home".toList])) :=
  C7_final_separator_ignored homeTree ["home".toList] (by decide) (by decide) (by decide)

/-! ## Enumeration -/

/-- C9: for every tree (in which, as in every tree the program builds, File
nodes own no children) and every path `"/" + s1 + "/" + ... + "/" + sk`
(`k >= 1`, every segment non-empty and free of `/`, of a size that fits a
`size_t`) that resolves to a node, the line that `display` from the root at
depth 0 emits for that node is `(k, sk)`: its depth is the number of segments,
which is the length of the node's position; the root's own line, the first,
has depth 0. -/
theorem C9_depth_matches_nesting (fs : FileSystem) (segs : List Str) (r : NodePtr)
    (hk : segs ≠ []) (hsegs : ∀ s ∈ segs, s ≠ [] ∧ '/' ∉ s)
    (hlen : (slashJoin segs).length < 2 ^ 64)
    (hwf : filesAreLeaves fs.root = true)
    (hr : fs.traverse (slashJoin segs) = .ok r) :
    (fs.display none 0)[lineIndex fs.root r.addr]?
        = segs.getLast?.map (fun sk => (segs.length, sk)) ∧
      nodeAt fs.root r.addr = some r.node ∧
      r.addr.length = segs.length ∧
      (fs.display none 0)[0]? = some (0, fs.root.name) := by
  obtain ⟨s, rest, rfl⟩ : ∃ s rest, segs = s :: rest := by
    cases segs with
    | nil => exact absurd rfl hk
    | cons s rest => exact ⟨s, rest, rfl⟩
  have hlast : (s :: rest).getLast? ≠ some [] := by
    intro h
    have hmem : [] ∈ (s :: rest) := List.mem_of_getLast?_eq_some h
    exact (hsegs [] hmem).1 rfl
  have hpath : slashJoin (s :: rest) = '/' :: s ++ slashJoin rest ++ [] := by
    simp [slashJoin]
  have hwalk : walk ⟨[], fs.root⟩ (s :: rest) = .ok r := by
    rw [← hr, hpath]
    rw [hpath] at hlen
    exact (traverse_segs fs '/' s rest [] (hsegs s (by simp)).2
      (fun x hx => (hsegs x (by simp [hx])).2) (Or.inl ⟨rfl, hlast⟩) hlen).symm
  have hnode := traverse_nodeAt hr
  have hdepth : r.addr.length = (s :: rest).length := by
    simpa using walk_addr_length hwalk
  have hname := walk_last_name hk hwalk
  have hline := displayNode_lineIndex r.addr fs.root r.node 0 hwf hnode
  refine ⟨?_, hnode, hdepth, ?_⟩
  · simp only [FileSystem.display]
    rw [hline, List.getLast?_eq_getLast _ hk, hname, hdepth]
    simp
  · simp only [FileSystem.display]
    rw [displayNode_eq]
    simp

/-- C9 at the path `/home/user1/file1.txt` of the usage example, whose line is the fourth. -/
theorem C9_witness :
    (exampleTree.display none 0)[lineIndex exampleTree.root [0, 0, 0]]?
        = ["home".toList, "user1".toList, "file1.txt".toList].getLast?.map
            (fun sk => (["home".toList, "user1".toList, "file1.txt".toList].length, sk)) ∧
      nodeAt exampleTree.root [0, 0, 0] = some (.mk "file1.txt".toList false [] []) ∧
      [0, 0, 0].length = ["home".toList, "user1".toList, "file1.txt".toList].length ∧
      (exampleTree.display none 0)[0]? = some (0, exampleTree.root.name) :=
  C9_depth_matches_nesting exampleTree ["home".toList, "user1".toList, "file1.txt".toList]
    ⟨[0, 0, 0], .mk "file1.txt".toList false [] []⟩
    (by decide) (by decide) (by decide) (by decide) rfl


/-! ## Children of the same name -/

/-- C10: for every tree in which `/etc` resolves to a Directory with no child
named `config`: `add("/etc", "config", File)` called twice succeeds both
times, the directory then holds two more children, both named `config`, and
`"/etc/config"` resolves to the first-inserted one, so a following
`write("/etc/config", c)` succeeds, appends `c` to the first-inserted node and
leaves the second one empty.  More generally `add` succeeds on a directory
whatever the name, also when a child already bears it. -/
theorem C10_duplicate_names (fs : FileSystem) (r : NodePtr) (c : Str)
    (hr : fs.traverse "/etc".toList = .ok r) (hdir : r.node.is_directory = true)
    (hnone : ∀ x ∈ r.node.children, x.name ≠ "config".toList) :
    (addConfig fs).1 = .ok () ∧ (addConfig (addConfig fs).2).1 = .ok () ∧
      nodeAt (addConfig (addConfig fs).2).2.root r.addr
        = some (.mk r.node.name true
            (r.node.children ++
              [.mk "config".toList false [] [], .mk "config".toList false [] []])
            r.node.content) ∧
      (addConfig (addConfig fs).2).2.traverse "/etc/config".toList
        = .ok ⟨r.addr ++ [r.node.children.length], .mk "config".toList false [] []⟩ ∧
      ((addConfig (addConfig fs).2).2.write_to_file "/etc/config".toList c).1 = .ok () ∧
      nodeAt ((addConfig (addConfig fs).2).2.write_to_file "/etc/config".toList c).2.root r.addr
        = some (.mk r.node.name true
            (r.node.children ++
              [.mk "config".toList false [] c, .mk "config".toList false [] []])
            r.node.content) ∧
      (∀ (fs' : FileSystem) (p n : Str) (k : Bool) (r' : NodePtr),
        fs'.traverse p = .ok r' → r'.node.is_directory = true →
        (∃ x ∈ r'.node.children, x.name = n) → (fs'.add p n k).1 = .ok ()) := by
  have t1 := traverse_parent_after_add "config".toList false hr hdir
  have hd1 : (NodePtr.mk r.addr (.mk r.node.name r.node.is_directory
      (r.node.children ++ [.mk "config".toList false [] []]) r.node.content)).node.is_directory
      = true := by simpa using hdir
  have t2 := traverse_parent_after_add "config".toList false t1 hd1
  simp only [name_mk, is_directory_mk, children_mk, content_mk, hdir,
    List.append_assoc, List.singleton_append] at t2
  have hpath : "/etc/config".toList = "/etc".toList ++ '/' :: "config".toList := by decide
  have hfind : findChild "config".toList
      (r.node.children ++ [.mk "config".toList false [] [], .mk "config".toList false [] []])
      = some (r.node.children.length, .mk "config".toList false [] []) := by
    rw [findChild_append_of_none _ (findChild_eq_none.mpr hnone)]
    simp [findChild]
  have t3 : (addConfig (addConfig fs).2).2.traverse "/etc/config".toList
      = .ok ⟨r.addr ++ [r.node.children.length], .mk "config".toList false [] []⟩ := by
    unfold addConfig
    rw [hpath, traverse_snoc _ _ _ (by decide) (by decide) (by decide) (by decide) (by decide), t2]
    simp only [traverseStep, children_mk, hfind]
  have hwrite := write_of_file c t3 (by simp)
  have hdir2 := traverse_nodeAt t2
  have hchild := traverse_nodeAt t3
  refine ⟨?_, ?_, hdir2, t3, ?_, ?_, ?_⟩
  · exact (add_ok_iff _ _ _ _).mpr ⟨r, hr, hdir⟩
  · exact (add_ok_iff _ _ _ _).mpr ⟨_, t1, hd1⟩
  · rw [hwrite]
  · rw [hwrite]
    dsimp only at hchild ⊢
    rw [nodeAt_store_above _ _ _ hchild]
    unfold addConfig
    rw [hdir2]
    simp [store, FileSystemNode.append_content]
  · intro fs' p n k r' hr' hdir' _
    exact (add_ok_iff _ _ _ _).mpr ⟨r', hr', hdir'⟩

/-- C10 on the tree that holds only the empty directory `/etc`. -/
theorem C10_witness :
    (addConfig etcTree).1 = .ok () ∧ (addConfig (addConfig etcTree).2).1 = .ok () ∧
      nodeAt (addConfig (addConfig etcTree).2).2.root [0]
        = some (.mk (FileSystemNode.name (.mk "etc".toList true [] [])) true
            (FileSystemNode.children (.mk "etc".toList true [] []) ++
              [.mk "config".toList false [] [], .mk "config".toList false [] []])
            (FileSystemNode.content (.mk "etc".toList true [] []))) ∧
      (addConfig (addConfig etcTree).2).2.traverse "/etc/config".toList
        = .ok ⟨[0] ++ [(FileSystemNode.children (.mk "etc".toList true [] [])).length],
            .mk "config".toList false [] []⟩ ∧
      ((addConfig (addConfig etcTree).2).2.write_to_file "/etc/config".toList
          "Configuration data here.".toList).1 = .ok () ∧
      nodeAt ((addConfig (addConfig etcTree).2).2.write_to_file "/etc/config".toList
          "Configuration data here.".toList).2.root [0]
        = some (.mk (FileSystemNode.name (.mk "etc".toList true [] [])) true
            (FileSystemNode.children (.mk "etc".toList true [] []) ++
              [.mk "config".toList false [] "Configuration data here.".toList,
               .mk "config".toList false [] []])
            (FileSystemNode.content (.mk "etc".toList true [] []))) ∧
      (∀ (fs' : FileSystem) (p n : Str) (k : Bool) (r' : NodePtr),
        fs'.traverse p = .ok r' → r'.node.is_directory = true →
        (∃ x ∈ r'.node.children, x.name = n) → (fs'.add p n k).1 = .ok ()) :=
  C10_duplicate_names etcTree ⟨[0], .mk "etc".toList true [] []⟩
    "Configuration data here.".toList rfl rfl (by decide)

/-! ## The state after each call -/

theorem read_file_state (fs : FileSystem) (path : Str) : (fs.read_file path).2 = fs := by
  unfold FileSystem.read_file
  cases fs.traverse path with
  | error e => rfl
  | ok r => dsimp only; split <;> rfl

theorem traverse_root (fs : FileSystem) : fs.traverse ['/'] = .ok ⟨[], fs.root⟩ := by
  simp [FileSystem.traverse]

theorem traverse_nil (fs : FileSystem) : fs.traverse [] = .ok ⟨[], fs.root⟩ := by
  simp [FileSystem.traverse, traverseLoop]

/-- A write of a node of the same name and kind keeps the name and the kind
of the root. -/
theorem store_root_members {root old new : FileSystemNode} {addr : List Nat}
    (hold : nodeAt root addr = some old) (hname : new.name = old.name)
    (hkind : new.is_directory = old.is_directory) :
    (store root addr new).name = root.name ∧
      (store root addr new).is_directory = root.is_directory := by
  cases addr with
  | nil =>
    simp only [nodeAt, Option.some.injEq] at hold
    subst hold
    simp only [store]
    exact ⟨hname, hkind⟩
  | cons i rest =>
    obtain ⟨e1, e2, _, _⟩ := store_cons_members root new i rest
    exact ⟨e1, e2⟩

theorem add_root_members (fs : FileSystem) (p n : Str) (k : Bool) :
    (fs.add p n k).2.root.name = fs.root.name ∧
      (fs.add p n k).2.root.is_directory = fs.root.is_directory := by
  cases h : fs.traverse p with
  | error e => rw [add_of_error n k h]; exact ⟨rfl, rfl⟩
  | ok r =>
    cases hd : r.node.is_directory with
    | false => rw [add_of_file n k h hd]; exact ⟨rfl, rfl⟩
    | true =>
      rw [add_of_directory n k h hd]
      exact store_root_members (traverse_nodeAt h) (by simp) (by simp)

theorem write_root_members (fs : FileSystem) (p c : Str) :
    (fs.write_to_file p c).2.root.name = fs.root.name ∧
      (fs.write_to_file p c).2.root.is_directory = fs.root.is_directory := by
  cases h : fs.traverse p with
  | error e => rw [write_of_error c h]; exact ⟨rfl, rfl⟩
  | ok r =>
    cases hd : r.node.is_directory with
    | true => rw [write_of_directory c h hd]; exact ⟨rfl, rfl⟩
    | false =>
      rw [write_of_file c h hd]
      exact store_root_members (traverse_nodeAt h) (by simp [FileSystemNode.append_content])
        (by simp [FileSystemNode.append_content])

/-- The root of a reachable file system is a directory named `/`. -/
theorem reachable_root {fs : FileSystem} (h : Reachable fs) :
    fs.root.is_directory = true ∧ fs.root.name = ['/'] := by
  induction h with
  | construct => exact ⟨rfl, rfl⟩
  | add fs p n k _ ih =>
    obtain ⟨e1, e2⟩ := add_root_members fs p n k
    exact ⟨e2.trans ih.1, e1.trans ih.2⟩
  | write_to_file fs p c _ ih =>
    obtain ⟨e1, e2⟩ := write_root_members fs p c
    exact ⟨e2.trans ih.1, e1.trans ih.2⟩
  | read_file fs p _ ih =>
    rw [read_file_state]
    exact ih

theorem reachable_exampleTree : Reachable exampleTree :=
  Reachable.add _ "/etc".toList "config".toList false
    (Reachable.add _ "/".toList "etc".toList true
      (Reachable.add _ "/home/user1".toList "file1.txt".toList false
        (Reachable.add _ "/home".toList "user1".toList true
          (Reachable.add _ "/".toList "home".toList true Reachable.construct))))

/-! ## The root path -/

/-- C11: for every tree, `traverse("/")` succeeds and returns the root itself,
at the empty position, whatever the children of the root are; consequently, on
every tree reachable from construction, `read("/")` and `write("/", c)` fail
with `IsADirectory`, leaving the tree as it was, and `add("/", n, k)` succeeds
and appends the new node to the children of the root. -/
theorem C11_root_path (fs : FileSystem) (c n : Str) (k : Bool) (hreach : Reachable fs) :
    (∀ fs' : FileSystem, fs'.traverse ['/'] = .ok ⟨[], fs'.root⟩) ∧
      fs.read_file ['/'] = (.error .IsADirectory, fs) ∧
      fs.write_to_file ['/'] c = (.error .IsADirectory, fs) ∧
      fs.add ['/'] n k = (.ok (),
        ⟨.mk ['/'] true (fs.root.children ++ [.mk n k [] []]) fs.root.content⟩) := by
  obtain ⟨hdir, hname⟩ := reachable_root hreach
  have hr := traverse_root fs
  refine ⟨traverse_root, read_of_directory hr hdir, write_of_directory c hr hdir, ?_⟩
  rw [add_of_directory n k hr hdir]
  simp [store, hdir, hname]

/-- C11 on the tree of the usage example. -/
theorem C11_witness :
    (∀ fs' : FileSystem, fs'.traverse ['/'] = .ok ⟨[], fs'.root⟩) ∧
      exampleTree.read_file ['/'] = (.error .IsADirectory, exampleTree) ∧
      exampleTree.write_to_file ['/'] "x".toList = (.error .IsADirectory, exampleTree) ∧
      exampleTree.add ['/'] "tmp".toList true = (.ok (),
        ⟨.mk ['/'] true (exampleTree.root.children ++ [.mk "tmp".toList true [] []])
          exampleTree.root.content⟩) :=
  C11_root_path exampleTree "x".toList "tmp".toList true reachable_exampleTree

/-! ## Files own no children, directories hold no content -/

/-- The positions of the tree after the object `d` at `addr` was replaced by
a node `new` with the same children: the positions are the same; the node at
`addr` is `new`; every other node keeps its name, kind and content; all keep
their number of children; nodes that are not ancestors of `addr` are unchanged
subtrees, `addr` itself apart. -/
theorem nodeAt_store_same_children {root d new : FileSystemNode} {addr : List Nat}
    (hd : nodeAt root addr = some d) (hkids : new.children = d.children) :
    (∀ q x, nodeAt root q = some x →
      ∃ x', nodeAt (store root addr new) q = some x' ∧
        (q = addr → x' = new) ∧
        (q ≠ addr → x'.name = x.name ∧ x'.is_directory = x.is_directory ∧
          x'.content = x.content) ∧
        x'.children.length = x.children.length ∧
        (q ≠ addr → ¬ q <+: addr → x' = x)) ∧
    (∀ q x', nodeAt (store root addr new) q = some x' → ∃ x, nodeAt root q = some x) := by
  have hbelow : ∀ i rest, nodeAt new (i :: rest) = nodeAt d (i :: rest) := by
    intro i rest
    simp only [nodeAt, hkids]
  constructor
  · intro q x hx
    by_cases h1 : addr <+: q
    · obtain ⟨q', rfl⟩ := h1
      rw [nodeAt_store_below _ q' hd]
      rw [nodeAt_append, hd] at hx
      simp only [Option.some_bind] at hx
      cases q' with
      | nil =>
        simp only [nodeAt, Option.some.injEq] at hx
        subst hx
        exact ⟨new, rfl, fun _ => rfl, fun hne => absurd (by simp) hne, by rw [hkids],
          fun hne => absurd (by simp) hne⟩
      | cons i rest =>
        rw [hbelow, hx]
        exact ⟨x, rfl, fun e => absurd e (by simp), fun _ => ⟨rfl, rfl, rfl⟩, rfl, fun _ _ => rfl⟩
    · by_cases h2 : q <+: addr
      · obtain ⟨rel, rfl⟩ := h2
        rw [nodeAt_store_above q rel _ hd, hx]
        cases rel with
        | nil => exact absurd (by simp) h1
        | cons i rest =>
          obtain ⟨e1, e2, e3, e4⟩ := store_cons_members x new i rest
          exact ⟨_, rfl, fun e => absurd e (by simp), fun _ => ⟨e1, e2, e3⟩, e4,
            fun _ hn => absurd (List.prefix_append _ _) hn⟩
      · rw [nodeAt_store_apart _ _ _ _ h1 h2]
        have hne : q ≠ addr := fun e => h1 (e ▸ List.prefix_refl _)
        exact ⟨x, hx, fun e => absurd e hne, fun _ => ⟨rfl, rfl, rfl⟩, rfl, fun _ _ => rfl⟩
  · intro q x' hx'
    by_cases h1 : addr <+: q
    · obtain ⟨q', rfl⟩ := h1
      rw [nodeAt_store_below _ q' hd] at hx'
      rw [nodeAt_append, hd]
      simp only [Option.some_bind]
      cases q' with
      | nil => exact ⟨d, rfl⟩
      | cons i rest => rw [hbelow] at hx'; exact ⟨x', hx'⟩
    · by_cases h2 : q <+: addr
      · obtain ⟨rel, rfl⟩ := h2
        obtain ⟨y, hy, _⟩ := nodeAt_append_some hd
        exact ⟨y, hy⟩
      · rw [nodeAt_store_apart _ _ _ _ h1 h2] at hx'
        exact ⟨x', hx'⟩

/-- The invariant of the data model, position by position: a File node has
no children and a Directory node has no content. -/
theorem add_keeps_kinds (fs : FileSystem) (p n : Str) (k : Bool)
    (h : ∀ q x, nodeAt fs.root q = some x →
      (x.is_directory = false → x.children = []) ∧ (x.is_directory = true → x.content = [])) :
    ∀ q x, nodeAt (fs.add p n k).2.root q = some x →
      (x.is_directory = false → x.children = []) ∧ (x.is_directory = true → x.content = []) := by
  cases ht : fs.traverse p with
  | error e => rw [add_of_error n k ht]; exact h
  | ok r =>
    cases hd : r.node.is_directory with
    | false => rw [add_of_file n k ht hd]; exact h
    | true =>
      rw [add_of_directory n k ht hd]
      have hnode := traverse_nodeAt ht
      obtain ⟨hold, hnew⟩ := nodeAt_store_push (.mk n k [] []) hnode
      intro q x' hx'
      rcases hnew q x' hx' with ⟨q', rfl, hq'⟩ | ⟨x, hx⟩
      · have hq : q' = [] := nodeAt_leaf (by simp) hq'
        subst hq
        simp only [nodeAt, Option.some.injEq] at hq'
        subst hq'
        simp
      · obtain ⟨x'', hx'', _, e2, e3, e4, _⟩ := hold q x hx
        rw [hx'] at hx''
        cases hx''
        obtain ⟨hfile, hdirc⟩ := h q x hx
        constructor
        · intro hf
          rw [e2] at hf
          have hq : q ≠ r.addr := by
            intro e
            rw [e, hnode] at hx
            cases hx
            rw [hd] at hf
            cases hf
          rw [if_neg hq, hfile hf] at e4
          exact List.length_eq_zero.mp (by simpa using e4)
        · intro hdd
          rw [e2] at hdd
          rw [e3]
          exact hdirc hdd

theorem write_keeps_kinds (fs : FileSystem) (p c : Str)
    (h : ∀ q x, nodeAt fs.root q = some x →
      (x.is_directory = false → x.children = []) ∧ (x.is_directory = true → x.content = [])) :
    ∀ q x, nodeAt (fs.write_to_file p c).2.root q = some x →
      (x.is_directory = false → x.children = []) ∧ (x.is_directory = true → x.content = []) := by
  cases ht : fs.traverse p with
  | error e => rw [write_of_error c ht]; exact h
  | ok r =>
    cases hd : r.node.is_directory with
    | true => rw [write_of_directory c ht hd]; exact h
    | false =>
      rw [write_of_file c ht hd]
      have hnode := traverse_nodeAt ht
      obtain ⟨hold, hnew⟩ := @nodeAt_store_same_children _ _ (r.node.append_content c) _
        hnode (by simp [FileSystemNode.append_content])
      intro q x' hx'
      obtain ⟨x, hx⟩ := hnew q x' hx'
      obtain ⟨x'', hx'', eself, eother, elen, _⟩ := hold q x hx
      rw [hx'] at hx''
      cases hx''
      obtain ⟨hfile, hdirc⟩ := h q x hx
      by_cases hq : q = r.addr
      · rw [eself hq]
        rw [hq, hnode] at hx
        cases hx
        constructor
        · intro _
          simpa [FileSystemNode.append_content] using hfile hd
        · intro hdd
          simp [FileSystemNode.append_content, hd] at hdd
      · obtain ⟨_, e2, e3⟩ := eother hq
        constructor
        · intro hf
          rw [e2] at hf
          rw [hfile hf] at elen
          exact List.length_eq_zero.mp (by simpa using elen)
        · intro hdd
          rw [e2] at hdd
          rw [e3]
          exact hdirc hdd

theorem reachable_kinds {fs : FileSystem} (hreach : Reachable fs) :
    ∀ q x, nodeAt fs.root q = some x →
      (x.is_directory = false → x.children = []) ∧ (x.is_directory = true → x.content = []) := by
  induction hreach with
  | construct =>
    intro q x hx
    have hq : q = [] := @nodeAt_leaf FileSystem.init.root x q rfl hx
    subst hq
    simp only [nodeAt, Option.some.injEq] at hx
    subst hx
    exact ⟨fun _ => rfl, fun _ => rfl⟩
  | add fs p n k _ ih => exact add_keeps_kinds fs p n k ih
  | write_to_file fs p c _ ih => exact write_keeps_kinds fs p c ih
  | read_file fs p _ ih => rw [read_file_state]; exact ih

mutual
theorem filesAreLeaves_of_positions : ∀ (n : FileSystemNode),
    (∀ q x, nodeAt n q = some x → x.is_directory = false → x.children = []) →
    filesAreLeaves n = true
  | .mk nm isd cs ct, h => by
    have h0 := h [] (.mk nm isd cs ct) rfl
    have hall := allFilesAreLeaves_of_positions cs (fun (i : Nat) c hc q x hx =>
      h (i :: q) x (by simp [nodeAt, hc, hx]))
    simp only [filesAreLeaves, hall, Bool.and_true, Bool.or_eq_true]
    cases isd with
    | true => exact Or.inl rfl
    | false =>
      right
      have : cs = [] := by simpa using h0
      simp [this]
theorem allFilesAreLeaves_of_positions : ∀ (cs : List FileSystemNode),
    (∀ (i : Nat) (c : FileSystemNode), cs[i]? = some c →
      ∀ q x, nodeAt c q = some x → x.is_directory = false → x.children = []) →
    allFilesAreLeaves cs = true
  | [], _ => rfl
  | c :: rest, h => by
    simp only [allFilesAreLeaves, Bool.and_eq_true]
    exact ⟨filesAreLeaves_of_positions c (h 0 c (by simp)),
      allFilesAreLeaves_of_positions rest
        (fun (i : Nat) c' hc => h (i + 1) c' (by simpa using hc))⟩
end

/-- C12: in every tree reachable from a freshly constructed `FileSystem` by
any finite sequence of `add` and `write_to_file` calls (and `read_file`
calls), successful or failing, every File node has an empty `children` vector
and every Directory node has empty content. -/
theorem C12_files_are_leaves (fs : FileSystem) (hreach : Reachable fs) :
    (∀ q x, nodeAt fs.root q = some x →
      (x.is_directory = false → x.children = []) ∧
      (x.is_directory = true → x.content = [])) ∧
    filesAreLeaves fs.root = true := by
  have h := reachable_kinds hreach
  exact ⟨h, filesAreLeaves_of_positions fs.root (fun q x hx => (h q x hx).1)⟩

/-- C12 on the tree of the usage example. -/
theorem C12_witness :
    (∀ q x, nodeAt exampleTree.root q = some x →
      (x.is_directory = false → x.children = []) ∧
      (x.is_directory = true → x.content = [])) ∧
    filesAreLeaves exampleTree.root = true :=
  C12_files_are_leaves exampleTree reachable_exampleTree

/-! ## The root stays, the tree only grows -/

/-- C13: in every tree reachable from a freshly constructed `FileSystem` by
any finite sequence of `add`, `write_to_file` and `read_file` calls,
successful or failing, the root is a Directory whose name is `/`; and so it
is after one more call, whichever it is: no operation replaces, renames or
changes the kind of the root. -/
theorem C13_root_is_fixed (fs : FileSystem) (hreach : Reachable fs) :
    fs.root.is_directory = true ∧ fs.root.name = ['/'] ∧
      (∀ p n k, (fs.add p n k).2.root.is_directory = true ∧
        (fs.add p n k).2.root.name = ['/']) ∧
      (∀ p c, (fs.write_to_file p c).2.root.is_directory = true ∧
        (fs.write_to_file p c).2.root.name = ['/']) ∧
      (∀ p, (fs.read_file p).2 = fs) := by
  obtain ⟨hdir, hname⟩ := reachable_root hreach
  refine ⟨hdir, hname, fun p n k => ?_, fun p c => ?_, fun p => read_file_state fs p⟩
  · obtain ⟨e1, e2⟩ := add_root_members fs p n k
    exact ⟨e2.trans hdir, e1.trans hname⟩
  · obtain ⟨e1, e2⟩ := write_root_members fs p c
    exact ⟨e2.trans hdir, e1.trans hname⟩

/-- C13 on the tree of the usage example. -/
theorem C13_witness :
    exampleTree.root.is_directory = true ∧ exampleTree.root.name = ['/'] ∧
      (∀ p n k, (exampleTree.add p n k).2.root.is_directory = true ∧
        (exampleTree.add p n k).2.root.name = ['/']) ∧
      (∀ p c, (exampleTree.write_to_file p c).2.root.is_directory = true ∧
        (exampleTree.write_to_file p c).2.root.name = ['/']) ∧
      (∀ p, (exampleTree.read_file p).2 = exampleTree) :=
  C13_root_is_fixed exampleTree reachable_exampleTree

/-- What two related pointers share: position, name and kind always; the
content too unless they point at the replaced object. -/
theorem updated_members {target : List Nat} {old new : FileSystemNode} {c c' : NodePtr}
    (hname : new.name = old.name) (hkind : new.is_directory = old.is_directory)
    (h : Updated target old new c c') :
    c'.addr = c.addr ∧ c'.node.name = c.node.name ∧
      c'.node.is_directory = c.node.is_directory ∧
      (c.addr ≠ target → c'.node.content = c.node.content) ∧
      (c.addr = target → c'.node = new ∧ c.node = old) := by
  obtain ⟨haddr, hcase⟩ := h
  refine ⟨haddr, ?_⟩
  rcases hcase with ⟨rel, htarget, hold, hnode⟩ | ⟨hnot, hnode⟩
  · cases rel with
    | nil =>
      simp only [nodeAt, Option.some.injEq] at hold
      simp only [store] at hnode
      rw [hnode, hold]
      exact ⟨hname, hkind, fun hne => absurd (by simp [htarget]) hne, fun _ => ⟨rfl, rfl⟩⟩
    | cons i rest =>
      obtain ⟨e1, e2, e3, _⟩ := store_cons_members c.node new i rest
      rw [hnode]
      refine ⟨e1, e2, fun _ => e3, fun e => ?_⟩
      rw [e] at htarget
      have := congrArg List.length htarget
      simp at this
  · rw [hnode]
    exact ⟨rfl, rfl, fun _ => rfl, fun e => absurd (e ▸ List.prefix_refl _) hnot⟩

theorem read_file_fst {fs : FileSystem} {q : Str} {r : NodePtr} (h : fs.traverse q = .ok r) :
    (fs.read_file q).1 =
      if r.node.is_directory then .error .IsADirectory else .ok r.node.content := by
  cases hd : r.node.is_directory with
  | true => rw [read_of_directory h hd]; rfl
  | false => rw [read_of_file h hd]; rfl

/-- Resolution after `add`: every path that resolved still resolves, to the
same position, where the node has the name, kind and content it had. -/
theorem traverse_after_add {fs : FileSystem} {q : Str} {r : NodePtr} (p n : Str) (k : Bool)
    (hr : fs.traverse q = .ok r) :
    ∃ r', (fs.add p n k).2.traverse q = .ok r' ∧ r'.addr = r.addr ∧
      r'.node.name = r.node.name ∧ r'.node.is_directory = r.node.is_directory ∧
      r'.node.content = r.node.content := by
  cases ht : fs.traverse p with
  | error e => rw [add_of_error n k ht]; exact ⟨r, hr, rfl, rfl, rfl, rfl⟩
  | ok t =>
    cases hd : t.node.is_directory with
    | false => rw [add_of_file n k ht hd]; exact ⟨r, hr, rfl, rfl, rfl, rfl⟩
    | true =>
      rw [add_of_directory n k ht hd]
      obtain ⟨r', hr', hupd⟩ := @traverse_store _ _ _
        (.mk t.node.name t.node.is_directory (t.node.children ++ [.mk n k [] []])
          t.node.content) (traverse_nodeAt ht) (by simp) (by simp) _ _ hr
      obtain ⟨e1, e2, e3, e4, e5⟩ := updated_members (by simp) (by simp) hupd
      refine ⟨r', hr', e1, e2, e3, ?_⟩
      by_cases hq : r.addr = t.addr
      · obtain ⟨h1, h2⟩ := e5 hq
        rw [h1, h2]
        rfl
      · exact e4 hq

/-- Resolution after `write_to_file`: every path that resolved still resolves,
to the same position, where the node has the name and kind it had and a
content that extends the one it had. -/
theorem traverse_after_write_any {fs : FileSystem} {q : Str} {r : NodePtr} (p c : Str)
    (hr : fs.traverse q = .ok r) :
    ∃ r', (fs.write_to_file p c).2.traverse q = .ok r' ∧ r'.addr = r.addr ∧
      r'.node.name = r.node.name ∧ r'.node.is_directory = r.node.is_directory ∧
      r.node.content <+: r'.node.content ∧
      (∀ t, fs.traverse p = .ok t → r.addr ≠ t.addr → r'.node.content = r.node.content) := by
  cases ht : fs.traverse p with
  | error e =>
    rw [write_of_error c ht]
    exact ⟨r, hr, rfl, rfl, rfl, List.prefix_refl _, fun t h => by cases h⟩
  | ok t =>
    cases hd : t.node.is_directory with
    | true =>
      rw [write_of_directory c ht hd]
      exact ⟨r, hr, rfl, rfl, rfl, List.prefix_refl _, fun _ _ _ => rfl⟩
    | false =>
      rw [write_of_file c ht hd]
      obtain ⟨r', hr', hupd⟩ := @traverse_store _ _ _ (t.node.append_content c)
        (traverse_nodeAt ht) (by simp [FileSystemNode.append_content])
        (by simp [FileSystemNode.append_content]) _ _ hr
      obtain ⟨e1, e2, e3, e4, e5⟩ := updated_members
        (by simp [FileSystemNode.append_content]) (by simp [FileSystemNode.append_content]) hupd
      refine ⟨r', hr', e1, e2, e3, ?_, ?_⟩
      · by_cases hq : r.addr = t.addr
        · obtain ⟨h1, h2⟩ := e5 hq
          rw [h1, h2]
          simp [FileSystemNode.append_content]
        · rw [e4 hq]
      · intro t' ht' hq
        cases ht'
        exact e4 hq

/-- C14: the tree only grows.  For every tree, every `add` or `write_to_file`
call on it, and every path `q` that resolves before the call: `q` resolves
after the call, to the same position, to a node with the same name and the
same kind; after an `add` the content is the same and `read(q)` returns what
it returned; after a write the old content is a prefix of the new one, which
is what `read(q)` returns when the node is a File. -/
theorem C14_tree_only_grows (fs : FileSystem) (q : Str) (r : NodePtr)
    (hr : fs.traverse q = .ok r) :
    (∀ p n k, ∃ r', (fs.add p n k).2.traverse q = .ok r' ∧ r'.addr = r.addr ∧
        r'.node.name = r.node.name ∧ r'.node.is_directory = r.node.is_directory ∧
        r'.node.content = r.node.content ∧
        ((fs.add p n k).2.read_file q).1 = (fs.read_file q).1) ∧
      (∀ p c, ∃ r', (fs.write_to_file p c).2.traverse q = .ok r' ∧ r'.addr = r.addr ∧
        r'.node.name = r.node.name ∧ r'.node.is_directory = r.node.is_directory ∧
        r.node.content <+: r'.node.content ∧
        (r.node.is_directory = false →
          (fs.read_file q).1 = .ok r.node.content ∧
          ((fs.write_to_file p c).2.read_file q).1 = .ok r'.node.content)) := by
  constructor
  · intro p n k
    obtain ⟨r', hr', e1, e2, e3, e4⟩ := traverse_after_add p n k hr
    refine ⟨r', hr', e1, e2, e3, e4, ?_⟩
    rw [read_file_fst hr', read_file_fst hr, e3, e4]
  · intro p c
    obtain ⟨r', hr', e1, e2, e3, e4, _⟩ := traverse_after_write_any p c hr
    refine ⟨r', hr', e1, e2, e3, e4, fun hfile => ?_⟩
    rw [read_file_fst hr', read_file_fst hr, e3, hfile]
    exact ⟨rfl, rfl⟩

/-- C14 at the file of the usage example. -/
theorem C14_witness :
    (∀ p n k, ∃ r', (exampleTree.add p n k).2.traverse "/home/user1/file1.txt".toList = .ok r' ∧
        r'.addr = [0, 0, 0] ∧
        r'.node.name = FileSystemNode.name (.mk "file1.txt".toList false [] []) ∧
        r'.node.is_directory = FileSystemNode.is_directory (.mk "file1.txt".toList false [] []) ∧
        r'.node.content = FileSystemNode.content (.mk "file1.txt".toList false [] []) ∧
        ((exampleTree.add p n k).2.read_file "/home/user1/file1.txt".toList).1
          = (exampleTree.read_file "/home/user1/file1.txt".toList).1) ∧
      (∀ p c, ∃ r', (exampleTree.write_to_file p c).2.traverse "/home/user1/file1.txt".toList
          = .ok r' ∧ r'.addr = [0, 0, 0] ∧
        r'.node.name = FileSystemNode.name (.mk "file1.txt".toList false [] []) ∧
        r'.node.is_directory = FileSystemNode.is_directory (.mk "file1.txt".toList false [] []) ∧
        FileSystemNode.content (.mk "file1.txt".toList false [] []) <+: r'.node.content ∧
        (FileSystemNode.is_directory (.mk "file1.txt".toList false [] []) = false →
          (exampleTree.read_file "/home/user1/file1.txt".toList).1
            = .ok (FileSystemNode.content (.mk "file1.txt".toList false [] [])) ∧
          ((exampleTree.write_to_file p c).2.read_file "/home/user1/file1.txt".toList).1
            = .ok r'.node.content)) :=
  C14_tree_only_grows exampleTree "/home/user1/file1.txt".toList
    ⟨[0, 0, 0], .mk "file1.txt".toList false [] []⟩ rfl

/-! ## The size of the enumeration -/

mutual
theorem displayNode_length_le : ∀ (n : FileSystemNode) (d : Nat),
    (displayNode n d).length ≤ nodeCount n
  | .mk nm isd cs ct, d => by
    cases isd with
    | false => simp [displayNode, nodeCount]
    | true =>
      have := displayChildren_length_le cs d
      simp only [displayNode, nodeCount, if_true, List.length_cons]
      omega
theorem displayChildren_length_le : ∀ (cs : List FileSystemNode) (d : Nat),
    (displayChildren cs d).length ≤ nodeCountList cs
  | [], d => by simp [displayChildren, nodeCountList]
  | c :: rest, d => by
    have h1 := displayNode_length_le c (d + 1)
    have h2 := displayChildren_length_le rest d
    simp only [displayChildren, nodeCountList, List.length_append]
    omega
end

mutual
theorem displayNode_length_eq : ∀ (n : FileSystemNode) (d : Nat),
    filesAreLeaves n = true → (displayNode n d).length = nodeCount n
  | .mk nm isd cs ct, d, h => by
    simp only [filesAreLeaves, Bool.and_eq_true, Bool.or_eq_true] at h
    cases isd with
    | false =>
      have hcs : cs = [] := by simpa using h.1
      simp [displayNode, nodeCount, hcs, nodeCountList]
    | true =>
      have := displayChildren_length_eq cs d h.2
      simp only [displayNode, nodeCount, if_true, List.length_cons]
      omega
theorem displayChildren_length_eq : ∀ (cs : List FileSystemNode) (d : Nat),
    allFilesAreLeaves cs = true → (displayChildren cs d).length = nodeCountList cs
  | [], d, _ => by simp [displayChildren, nodeCountList]
  | c :: rest, d, h => by
    simp only [allFilesAreLeaves, Bool.and_eq_true] at h
    have h1 := displayNode_length_eq c (d + 1) h.1
    have h2 := displayChildren_length_eq rest d h.2
    simp only [displayChildren, nodeCountList, List.length_append]
    omega
end

theorem reachable_filesAreLeaves {fs : FileSystem} (hreach : Reachable fs) :
    filesAreLeaves fs.root = true :=
  filesAreLeaves_of_positions fs.root (fun q x hx => (reachable_kinds hreach q x hx).1)

/-- C15: for every tree (in which, as in every tree the program builds, File
nodes own no children), `display` from the root, a total function, emits
exactly one line per node of the tree: the number of lines equals the number
of nodes, the root included; from any node and at any depth the number of
lines is at most the number of nodes of its subtree. -/
theorem C15_one_line_per_node (fs : FileSystem) (hwf : filesAreLeaves fs.root = true) :
    (fs.display none 0).length = nodeCount fs.root ∧
      (∀ (node : FileSystemNode) (d : Nat),
        (fs.display (some node) d).length ≤ nodeCount node) :=
  ⟨displayNode_length_eq fs.root 0 hwf, fun node d => displayNode_length_le node d⟩

/-- C15 on the tree of the usage example, which has six nodes. -/
theorem C15_witness :
    (exampleTree.display none 0).length = nodeCount exampleTree.root ∧
      (∀ (node : FileSystemNode) (d : Nat),
        (exampleTree.display (some node) d).length ≤ nodeCount node) :=
  C15_one_line_per_node exampleTree (by decide)

/-! ## Reading twice -/

/-- C16: for every tree and every path `p`, `read(p)` leaves the file system
as it was, so a second `read(p)` right after the first returns the same
result: the same content, or the same error. -/
theorem C16_read_is_idempotent (fs : FileSystem) (p : Str) :
    (fs.read_file p).2 = fs ∧
      ((fs.read_file p).2.read_file p).1 = (fs.read_file p).1 := by
  rw [read_file_state]
  exact ⟨rfl, rfl⟩

/-! ## The path of a new child -/

/-- After a successful `add` under the parent path `p`, either `"/"` or a path
that begins with `/` and does not end with `/`, the path `childPath p n` of a
new child whose name is non-empty, free of `/` and borne by no sibling
resolves to the new node. -/
theorem traverse_childPath_after_add {fs : FileSystem} {p : Str} {r : NodePtr}
    (n : Str) (k : Bool)
    (hp : p = ['/'] ∨ (p.head? = some '/' ∧ p.getLast? ≠ some '/'))
    (hr : fs.traverse p = .ok r) (hdir : r.node.is_directory = true)
    (hn1 : n ≠ []) (hn2 : '/' ∉ n) (hdup : ∀ x ∈ r.node.children, x.name ≠ n)
    (hlen : (childPath p n).length < 2 ^ 64) :
    (fs.add p n k).2.traverse (childPath p n)
      = .ok ⟨r.addr ++ [r.node.children.length], .mk n k [] []⟩ := by
  rcases hp with rfl | ⟨hhead, hlast⟩
  · have hparent := traverse_parent_after_add n k hr hdir
    rw [traverse_root] at hparent
    have hnil := traverse_nil (fs.add ['/'] n k).2
    rw [hparent] at hnil
    have hq : childPath ['/'] n = [] ++ '/' :: n := by simp [childPath]
    rw [hq] at hlen ⊢
    rw [traverse_snoc _ [] n (by simp) (by simp) hn1 hn2 hlen, hnil]
    simp only [traverseStep, children_mk]
    rw [findChild_append_of_none _ (findChild_eq_none.mpr hdup)]
    simp [findChild]
  · have hne : p ≠ ['/'] := by
      intro e
      rw [e] at hlast
      exact hlast rfl
    have hp1 : p.length ≠ 1 := by
      intro h1
      cases p with
      | nil => simp at h1
      | cons a b =>
        have hb : b = [] := by simpa using h1
        subst hb
        simp only [List.head?_cons, Option.some.injEq] at hhead
        subst hhead
        exact hne rfl
    have hq : childPath p n = p ++ '/' :: n := by simp [childPath, hne]
    rw [hq] at hlen ⊢
    exact traverse_child_after_add n k hr hdir hp1 hlast hn1 hn2 hdup hlen

/-- C17: for every tree, every parent path `p` that is either `"/"` or begins
with `/` and does not end with `/`, and that resolves to a Directory `d`, and
every name `n` that is non-empty, contains no `/` and differs from the name of
every child of `d` (the paths being of a size that fits a `size_t`): after
`add(p, n, k)` the path `q` (`"/" + n` when `p` is `"/"`, `p + "/" + n`
otherwise) resolves to the newly added node, the last child of `d`, of kind
`k`, with empty content and no children; for `k = File`, `read(q)` returns the
empty string, and `write(q, c)` followed by `read(q)` returns `c`. -/
theorem C17_new_child_resolves (fs : FileSystem) (p n c : Str) (k : Bool) (r : NodePtr)
    (hp : p = ['/'] ∨ (p.head? = some '/' ∧ p.getLast? ≠ some '/'))
    (hr : fs.traverse p = .ok r) (hdir : r.node.is_directory = true)
    (hn1 : n ≠ []) (hn2 : '/' ∉ n) (hdup : ∀ x ∈ r.node.children, x.name ≠ n)
    (hlen : (childPath p n).length < 2 ^ 64) :
    (fs.add p n k).1 = .ok () ∧
      (fs.add p n k).2.traverse (childPath p n)
        = .ok ⟨r.addr ++ [r.node.children.length], .mk n k [] []⟩ ∧
      (k = false →
        ((fs.add p n k).2.read_file (childPath p n)).1 = .ok [] ∧
        ((fs.add p n k).2.write_to_file (childPath p n) c).1 = .ok () ∧
        (((fs.add p n k).2.write_to_file (childPath p n) c).2.read_file (childPath p n)).1
          = .ok c) := by
  have hq := traverse_childPath_after_add n k hp hr hdir hn1 hn2 hdup hlen
  refine ⟨(add_ok_iff fs p n k).mpr ⟨r, hr, hdir⟩, hq, ?_⟩
  intro hk
  subst hk
  have hfile : (NodePtr.mk (r.addr ++ [r.node.children.length])
      (.mk n false [] [])).node.is_directory = false := rfl
  have hw := traverse_after_write c hq hfile
  have hfile' : (NodePtr.mk (r.addr ++ [r.node.children.length])
      ((FileSystemNode.mk n false [] []).append_content c)).node.is_directory = false := rfl
  refine ⟨?_, ?_, ?_⟩
  · rw [read_of_file hq hfile]
    rfl
  · rw [write_of_file c hq hfile]
  · rw [read_of_file hw hfile']
    simp [FileSystemNode.append_content]

/-- C17 at `add("/etc", "config", File)` and the write to `/etc/config` of the
usage example. -/
theorem C17_witness :
    (etcTree.add "/etc".toList "config".toList false).1 = .ok () ∧
      (etcTree.add "/etc".toList "config".toList false).2.traverse
          (childPath "/etc".toList "config".toList)
        = .ok ⟨[0] ++ [(FileSystemNode.children (.mk "etc".toList true [] [])).length],
            .mk "config".toList false [] []⟩ ∧
      (false = false →
        ((etcTree.add "/etc".toList "config".toList false).2.read_file
          (childPath "/etc".toList "config".toList)).1 = .ok [] ∧
        ((etcTree.add "/etc".toList "config".toList false).2.write_to_file
          (childPath "/etc".toList "config".toList) "Configuration data here.".toList).1
          = .ok () ∧
        (((etcTree.add "/etc".toList "config".toList false).2.write_to_file
          (childPath "/etc".toList "config".toList)
          "Configuration data here.".toList).2.read_file
            (childPath "/etc".toList "config".toList)).1
          = .ok "Configuration data here.".toList) :=
  C17_new_child_resolves etcTree "/etc".toList "config".toList
    "Configuration data here.".toList false ⟨[0], .mk "etc".toList true [] []⟩
    (Or.inr (by decide)) rfl rfl (by decide) (by decide) (by decide) (by decide)

/-! ## The frame of `write_to_file` -/

theorem displayNode_congr {a b : FileSystemNode} (h1 : a.name = b.name)
    (h2 : a.is_directory = b.is_directory) (h3 : a.children = b.children) (d : Nat) :
    displayNode a d = displayNode b d := by
  rw [displayNode_eq, displayNode_eq, h1, h2, h3]

theorem flatMap_set_eq {α β : Type} (f : α → List β) (cs : List α) (i : Nat) (ci x : α)
    (hci : cs[i]? = some ci) (hx : f x = f ci) : (cs.set i x).flatMap f = cs.flatMap f := by
  induction cs generalizing i with
  | nil => simp at hci
  | cons a rest ih =>
    cases i with
    | zero =>
      simp only [List.getElem?_cons_zero, Option.some.injEq] at hci
      subst hci
      simp [hx]
    | succ i =>
      simp only [List.getElem?_cons_succ] at hci
      simp [ih i hci]

/-- Replacing a node by one of the same name, kind and children changes no
line of `display`. -/
theorem displayNode_store {old new : FileSystemNode} (addr : List Nat)
    (hname : new.name = old.name) (hkind : new.is_directory = old.is_directory)
    (hkids : new.children = old.children) :
    ∀ (root : FileSystemNode) (d : Nat), nodeAt root addr = some old →
      displayNode (store root addr new) d = displayNode root d := by
  induction addr with
  | nil =>
    intro root d hold
    simp only [nodeAt, Option.some.injEq] at hold
    subst hold
    simp only [store]
    exact displayNode_congr hname hkind hkids d
  | cons i rest ih =>
    intro root d hold
    cases root with
    | mk nm isd cs ct =>
      simp only [nodeAt, children_mk] at hold
      cases hci : cs[i]? with
      | none => rw [hci] at hold; cases hold
      | some ci =>
        rw [hci] at hold
        simp only [store, hci]
        rw [displayNode_eq, displayNode_eq]
        simp only [name_mk, is_directory_mk, children_mk]
        rw [flatMap_set_eq (fun c => displayNode c (d + 1)) cs i ci _ hci (ih ci (d + 1) hold)]

/-- C18: a successful `write(p, c)` changes nothing but the content of the one
node `p` resolves to.  That node's content becomes the old content followed by
`c`; the positions of the tree are the same and every node keeps its name,
its kind, its number of children and, the written node apart, its content; so
`display` emits the same lines; and for every path `q` that resolves to
another position `read(q)` returns what it returned before the write. -/
theorem C18_write_frame (fs : FileSystem) (p c : Str) (r : NodePtr)
    (hr : fs.traverse p = .ok r) (hfile : r.node.is_directory = false) :
    (fs.write_to_file p c).1 = .ok () ∧
      nodeAt (fs.write_to_file p c).2.root r.addr
        = some (.mk r.node.name false r.node.children (r.node.content ++ c)) ∧
      (∀ q x, nodeAt fs.root q = some x →
        ∃ x', nodeAt (fs.write_to_file p c).2.root q = some x' ∧
          x'.name = x.name ∧ x'.is_directory = x.is_directory ∧
          x'.children.length = x.children.length ∧
          x'.content = (if q = r.addr then x.content ++ c else x.content) ∧
          (q ≠ r.addr → ¬ q <+: r.addr → x' = x)) ∧
      (∀ q x', nodeAt (fs.write_to_file p c).2.root q = some x' →
        ∃ x, nodeAt fs.root q = some x) ∧
      (∀ d, (fs.write_to_file p c).2.display none d = fs.display none d) ∧
      (∀ q rq, fs.traverse q = .ok rq → rq.addr ≠ r.addr →
        ((fs.write_to_file p c).2.read_file q).1 = (fs.read_file q).1) := by
  have hnode := traverse_nodeAt hr
  have hw := write_of_file c hr hfile
  obtain ⟨hold, hnew⟩ := @nodeAt_store_same_children _ _ (r.node.append_content c) _
    hnode (by simp [FileSystemNode.append_content])
  refine ⟨by rw [hw], ?_, ?_, ?_, ?_, ?_⟩
  · rw [hw]
    have := nodeAt_store_below (r.node.append_content c) [] hnode
    simpa [nodeAt, FileSystemNode.append_content, hfile] using this
  · rw [hw]
    intro q x hx
    obtain ⟨x', hx', eself, eother, elen, eframe⟩ := hold q x hx
    refine ⟨x', hx', ?_⟩
    by_cases hq : q = r.addr
    · rw [eself hq, if_pos hq]
      rw [hq, hnode] at hx
      cases hx
      exact ⟨rfl, rfl, rfl, rfl, fun hne => absurd hq hne⟩
    · obtain ⟨e1, e2, e3⟩ := eother hq
      rw [if_neg hq]
      exact ⟨e1, e2, elen, e3, eframe⟩
  · rw [hw]
    exact hnew
  · intro d
    rw [hw]
    simp only [FileSystem.display]
    exact displayNode_store r.addr (by simp [FileSystemNode.append_content])
      (by simp [FileSystemNode.append_content]) (by simp [FileSystemNode.append_content])
      fs.root d hnode
  · intro q rq hrq hne
    obtain ⟨rq', hrq', _, _, e3, _, e5⟩ := traverse_after_write_any p c hrq
    rw [read_file_fst hrq', read_file_fst hrq, e3, e5 r hr hne]

/-- C18 at the first write of the usage example. -/
theorem C18_witness :
    (exampleTree.write_to_file "/home/user1/file1.txt".toList "Hello, World!\n".toList).1
        = .ok () ∧
      nodeAt (exampleTree.write_to_file "/home/user1/file1.txt".toList
          "Hello, World!\n".toList).2.root [0, 0, 0]
        = some (.mk (FileSystemNode.name (.mk "file1.txt".toList false [] [])) false
            (FileSystemNode.children (.mk "file1.txt".toList false [] []))
            (FileSystemNode.content (.mk "file1.txt".toList false [] [])
              ++ "Hello, World!\n".toList)) ∧
      (∀ q x, nodeAt exampleTree.root q = some x →
        ∃ x', nodeAt (exampleTree.write_to_file "/home/user1/file1.txt".toList
            "Hello, World!\n".toList).2.root q = some x' ∧
          x'.name = x.name ∧ x'.is_directory = x.is_directory ∧
          x'.children.length = x.children.length ∧
          x'.content = (if q = [0, 0, 0] then x.content ++ "Hello, World!\n".toList
            else x.content) ∧
          (q ≠ [0, 0, 0] → ¬ q <+: [0, 0, 0] → x' = x)) ∧
      (∀ q x', nodeAt (exampleTree.write_to_file "/home/user1/file1.txt".toList
          "Hello, World!\n".toList).2.root q = some x' →
        ∃ x, nodeAt exampleTree.root q = some x) ∧
      (∀ d, (exampleTree.write_to_file "/home/user1/file1.txt".toList
          "Hello, World!\n".toList).2.display none d = exampleTree.display none d) ∧
      (∀ q rq, exampleTree.traverse q = .ok rq → rq.addr ≠ [0, 0, 0] →
        ((exampleTree.write_to_file "/home/user1/file1.txt".toList
          "Hello, World!\n".toList).2.read_file q).1 = (exampleTree.read_file q).1) :=
  C18_write_frame exampleTree "/home/user1/file1.txt".toList "Hello, World!\n".toList
    ⟨[0, 0, 0], .mk "file1.txt".toList false [] []⟩ rfl rfl

/-! ## The first character of a path -/

/-- The segments that `traverse` looks up are read off the path without its
first character. -/
theorem traverse_tail_walk (r : Str) (hlen : r.length + 1 < 2 ^ 64) :
    ∃ segs : List Str, ∀ (c : Char) (fs : FileSystem),
      fs.traverse (c :: r) = walk ⟨[], fs.root⟩ segs := by
  by_cases hr : r = []
  · subst hr
    refine ⟨[], fun c fs => ?_⟩
    by_cases hc : c = '/'
    · simp [FileSystem.traverse, hc, walk]
    · simp [FileSystem.traverse, hc, walk, traverseLoop]
  · obtain ⟨s, rest, hsplit, hs, hrest, hlast⟩ := exists_segs r
    by_cases hl : (s :: rest).getLast? = some []
    · have hrest_ne : rest ≠ [] := by
        intro h
        subst h
        simp only [List.getLast?_singleton, Option.some.injEq] at hl
        subst hl
        exact hr (by simpa [slashJoin] using hsplit)
      have hl' : rest.getLast? = some [] := by
        rw [← getLast?_cons_of_ne_nil s hrest_ne]; exact hl
      have hdrop : rest.dropLast ++ [[]] = rest :=
        List.dropLast_append_getLast? [] (by simp [hl'])
      have hpath : ∀ c : Char, c :: r = c :: s ++ slashJoin rest.dropLast ++ ['/'] := by
        intro c
        rw [hsplit]
        conv_lhs => rw [← hdrop]
        simp [slashJoin_append, slashJoin]
      refine ⟨s :: rest.dropLast, fun c fs => ?_⟩
      have hlen' : (c :: r).length < 2 ^ 64 := by simpa using hlen
      rw [hpath c] at hlen' ⊢
      exact traverse_segs fs c s rest.dropLast ['/'] hs
        (fun x hx => hrest x (List.mem_of_mem_dropLast hx)) (Or.inr rfl) hlen'
    · have hpath : ∀ c : Char, c :: r = c :: s ++ slashJoin rest ++ [] := by
        intro c
        simp [hsplit]
      refine ⟨s :: rest, fun c fs => ?_⟩
      have hlen' : (c :: r).length < 2 ^ 64 := by simpa using hlen
      rw [hpath c] at hlen' ⊢
      exact traverse_segs fs c s rest [] hs hrest (Or.inl ⟨rfl, hl⟩) hlen'

theorem add_congr {fs : FileSystem} {p p' : Str} (n : Str) (k : Bool)
    (h : fs.traverse p = fs.traverse p') : fs.add p n k = fs.add p' n k := by
  unfold FileSystem.add
  rw [h]

/-- C19: `traverse` never inspects the first character of a path and never
rejects a path for not starting with `/`: for every tree, every character `c`
and every string `s` (of a size that fits a `size_t`), `traverse(c + s)`
gives the result of `traverse("/" + s)`; `traverse("")` succeeds and returns
the root, so `add("", n, k)` does what `add("/", n, k)` does and attaches `n`
under the root when the root is a directory; `"xhome"` resolves exactly as
`"/home"` does. -/
theorem C19_first_character_ignored (fs : FileSystem) (c : Char) (s n : Str) (k : Bool)
    (hlen : (c :: s).length < 2 ^ 64) :
    fs.traverse (c :: s) = fs.traverse ('/' :: s) ∧
      fs.traverse [] = .ok ⟨[], fs.root⟩ ∧
      fs.add [] n k = fs.add ['/'] n k ∧
      (fs.root.is_directory = true →
        fs.add [] n k = (.ok (), ⟨.mk fs.root.name true
          (fs.root.children ++ [.mk n k [] []]) fs.root.content⟩)) ∧
      fs.traverse "xhome".toList = fs.traverse "/home".toList := by
  refine ⟨?_, traverse_nil fs, ?_, ?_, ?_⟩
  · obtain ⟨segs, hsegs⟩ := traverse_tail_walk s (by simpa using hlen)
    rw [hsegs c fs, hsegs '/' fs]
  · exact add_congr n k ((traverse_nil fs).trans (traverse_root fs).symm)
  · intro hdir
    rw [add_of_directory n k (traverse_nil fs) hdir]
    simp [store, hdir]
  · obtain ⟨segs, hsegs⟩ := traverse_tail_walk "home".toList (by decide)
    have h1 : "xhome".toList = 'x' :: "home".toList := by decide
    have h2 : "/home".toList = '/' :: "home".toList := by decide
    rw [h1, h2, hsegs 'x' fs, hsegs '/' fs]

/-- C19 at the path `xhome/user1` on the tree of the usage example. -/
theorem C19_witness :
    exampleTree.traverse ('x' :: "home/user1".toList)
        = exampleTree.traverse ('/' :: "home/user1".toList) ∧
      exampleTree.traverse [] = .ok ⟨[], exampleTree.root⟩ ∧
      exampleTree.add [] "tmp".toList false = exampleTree.add ['/'] "tmp".toList false ∧
      (exampleTree.root.is_directory = true →
        exampleTree.add [] "tmp".toList false = (.ok (), ⟨.mk exampleTree.root.name true
          (exampleTree.root.children ++ [.mk "tmp".toList false [] []])
          exampleTree.root.content⟩)) ∧
      exampleTree.traverse "xhome".toList = exampleTree.traverse "/home".toList :=
  C19_first_character_ignored exampleTree 'x' "home/user1".toList "tmp".toList false
    (by decide)

/-! ## Termination and bounds of the loop of `traverse` -/

theorem traverseStep_error {c : NodePtr} {part : Str} {e : Error}
    (h : traverseStep c part = .error e) : e = .PathNotFound := by
  unfold traverseStep at h
  cases hf : findChild part c.node.children with
  | none => rw [hf] at h; cases h; rfl
  | some q => rw [hf] at h; cases h

/-- The call `path.find('/', start)` with `start` inside the path returns
`npos` or an index from `start` on and inside the path. -/
theorem find_cases (path : Str) (start : Nat) (hlen : path.length < 2 ^ 64) :
    find path '/' start = npos ∨
      (find path '/' start ≠ npos ∧ start ≤ find path '/' start ∧
        find path '/' start < path.length) := by
  cases hf : firstIndex '/' (path.drop start) with
  | none => exact Or.inl (by simp [find, hf])
  | some i =>
    right
    have hfind : find path '/' start = start + i := by simp [find, hf]
    have hi := firstIndex_lt hf
    simp only [List.length_drop] at hi
    rw [hfind, npos_val]
    omega

theorem substr_ok (path : Str) (start count : Nat) (hlt : start < path.length) :
    substr path start count = .ok ((path.drop start).take count) := by
  have : ¬ start > path.length := by omega
  simp [substr, this]

/-- With a budget of at least `path.size() - start` iterations the loop ends,
and its only failure is `PathNotFound`. -/
theorem traverseLoop_total (path : Str) (hlen : path.length < 2 ^ 64) (fuel : Nat) :
    ∀ (cur : NodePtr) (start : Nat) (e : Error), path.length ≤ start + fuel →
      traverseLoop path fuel cur start = .error e → e = .PathNotFound := by
  induction fuel with
  | zero =>
    intro cur start e hfuel h
    rw [traverseLoop_done path 0 cur start (by omega)] at h
    cases h
  | succ fuel ih =>
    intro cur start e hfuel h
    by_cases hlt : start < path.length
    · rw [traverseLoop_succ _ _ _ _ hlt, substr_ok path start _ hlt] at h
      dsimp only at h
      cases hst : traverseStep cur ((path.drop start).take
          ((find path '/' start + 2 ^ 64 - start) % 2 ^ 64)) with
      | error e' =>
        rw [hst] at h
        cases h
        exact traverseStep_error hst
      | ok next =>
        rw [hst] at h
        dsimp only at h
        rcases find_cases path start hlen with hnp | ⟨hne, hle, hin⟩
        · rw [if_pos hnp] at h
          cases h
        · rw [if_neg hne] at h
          have hnext : (find path '/' start + 1) % 2 ^ 64 = find path '/' start + 1 :=
            Nat.mod_eq_of_lt (by omega)
          rw [hnext] at h
          exact ih next _ e (by omega) h
    · rw [traverseLoop_done path _ cur start (by omega)] at h
      cases h

/-- C20: for every tree and every path string (of a size that fits a
`size_t`), `traverse` terminates, within `path.size()` iterations of its loop,
and its only failure is `PathNotFound`.  On every iteration, where
`start < path.size()` holds, the extraction `path.substr(start, end - start)`
is in bounds, never an out-of-range error, and when the loop goes on the new
`start` is greater than the old one and at most `path.size()`. -/
theorem C20_traverse_terminates (fs : FileSystem) (path : Str)
    (hlen : path.length < 2 ^ 64) :
    ((∃ r, fs.traverse path = .ok r) ∨ fs.traverse path = .error .PathNotFound) ∧
      (∀ (fuel : Nat) (cur : NodePtr) (start : Nat) (e : Error), path.length ≤ start + fuel →
        traverseLoop path fuel cur start = .error e → e = .PathNotFound) ∧
      (∀ start, start < path.length →
        substr path start ((find path '/' start + 2 ^ 64 - start) % 2 ^ 64)
          = .ok ((path.drop start).take ((find path '/' start + 2 ^ 64 - start) % 2 ^ 64)) ∧
        (find path '/' start ≠ npos →
          start < (find path '/' start + 1) % 2 ^ 64 ∧
          (find path '/' start + 1) % 2 ^ 64 ≤ path.length)) := by
  refine ⟨?_, fun fuel cur start e => traverseLoop_total path hlen fuel cur start e, ?_⟩
  · cases h : fs.traverse path with
    | ok r => exact Or.inl ⟨r, rfl⟩
    | error e =>
      right
      rw [traverse_error_kind hlen h]
  · intro start hlt
    refine ⟨substr_ok path start _ hlt, fun hne => ?_⟩
    rcases find_cases path start hlen with hnp | ⟨_, hle, hin⟩
    · exact absurd hnp hne
    · have hnext : (find path '/' start + 1) % 2 ^ 64 = find path '/' start + 1 :=
        Nat.mod_eq_of_lt (by omega)
      rw [hnext]
      omega

/-- C20 at a path of the usage example. -/
theorem C20_witness :
    ((∃ r, exampleTree.traverse "/home/user1".toList = .ok r) ∨
        exampleTree.traverse "/home/user1".toList = .error .PathNotFound) ∧
      (∀ (fuel : Nat) (cur : NodePtr) (start : Nat) (e : Error),
        "/home/user1".toList.length ≤ start + fuel →
        traverseLoop "/home/user1".toList fuel cur start = .error e → e = .PathNotFound) ∧
      (∀ start, start < "/home/user1".toList.length →
        substr "/home/user1".toList start
            ((find "/home/user1".toList '/' start + 2 ^ 64 - start) % 2 ^ 64)
          = .ok (("/home/user1".toList.drop start).take
              ((find "/home/user1".toList '/' start + 2 ^ 64 - start) % 2 ^ 64)) ∧
        (find "/home/user1".toList '/' start ≠ npos →
          start < (find "/home/user1".toList '/' start + 1) % 2 ^ 64 ∧
          (find "/home/user1".toList '/' start + 1) % 2 ^ 64 ≤ "/home/user1".toList.length)) :=
  C20_traverse_terminates exampleTree "/home/user1".toList (by decide)

/-! ## `display` with its `int indent` -/

mutual
/-- From a non-negative `indent` that leaves room for the nesting below the
node, `display` with `int indent` emits the lines of `displayNode`. -/
theorem displayNodeInt_eq : ∀ (n : FileSystemNode) (d : Int), 0 ≤ d →
    d + displayDepth n ≤ INT_MAX → displayNodeInt n d = some (displayNode n d.toNat)
  | .mk nm isd cs ct, d, h0, hfit => by
    cases isd with
    | false => simp [displayNodeInt, displayNode]
    | true =>
      have hcs := displayChildrenInt_eq cs d h0 (by simpa [displayDepth] using hfit)
      simp [displayNodeInt, displayNode, hcs]
theorem displayChildrenInt_eq : ∀ (cs : List FileSystemNode) (d : Int), 0 ≤ d →
    d + displayDepthList cs ≤ INT_MAX → displayChildrenInt cs d = some (displayChildren cs d.toNat)
  | [], d, _, _ => by simp [displayChildrenInt, displayChildren]
  | c :: rest, d, h0, hfit => by
    simp only [displayDepthList, Nat.cast_max, Nat.cast_add, Nat.cast_one] at hfit
    have hc : d + 1 + displayDepth c ≤ INT_MAX := by
      have := le_max_left ((displayDepth c : Int) + 1) (displayDepthList rest : Int)
      omega
    have hr : d + displayDepthList rest ≤ INT_MAX := by
      have := le_max_right ((displayDepth c : Int) + 1) (displayDepthList rest : Int)
      omega
    have hno : ¬ d + 1 > INT_MAX := by
      have : (0 : Int) ≤ displayDepth c := Int.ofNat_nonneg _
      omega
    have h1 := displayNodeInt_eq c (d + 1) (by omega) hc
    have h2 := displayChildrenInt_eq rest d h0 hr
    have hnat : (d + 1).toNat = d.toNat + 1 := by omega
    simp only [displayChildrenInt, hno, if_false, h1, h2, hnat, displayChildren, Option.map_some']
end

/-- The two levels of `display` agree from every non-negative `indent` that
leaves room for the nesting that `display` descends through. -/
theorem displayInt_eq_display (fs : FileSystem) (node : Option FileSystemNode) (d : Int)
    (h0 : 0 ≤ d) (hfit : d + displayDepth (node.getD fs.root) ≤ INT_MAX) :
    fs.displayInt node d = some (fs.display node d.toNat) := by
  cases node with
  | none => exact displayNodeInt_eq fs.root d h0 hfit
  | some n => exact displayNodeInt_eq n d h0 hfit

end VirtualFS
